import Mathlib

/-!
# Verification of `pyredis` collections against its specification

Shallow embedding of the `pyredis` library (files `pyredis/collections.py`
and `pyredis/ttl.py`).  Byte strings are modelled as `List Nat`, Python
dictionaries as association lists in iteration order, the remote Redis store
as an association list from byte keys to typed Redis values, and each remote
command as a constructor of a `Cmd` type interpreted by `applyCmd`.
Clock values and sorted-set scores are modelled as integers: every claim
about them uses only ordering and addition.

The file has two parts: first all definitions (the embedding), then the
theorems about them.
-/

set_option autoImplicit false
set_option linter.unusedSectionVars false

namespace PyRedis

/-! ### Part 1: definitions -/

/-- Byte strings (`bytes` in Python). -/
abbrev Bytes := List Nat

/-- The Python exceptions raised by the library, plus the Redis `WRONGTYPE`
command error. -/
inductive PyError where
  | keyError
  | typeError
  | valueError
  | notImplementedError
  | indexError
  | wrongType
  | responseError
  deriving DecidableEq, Repr

/-- A serializer object: `dumps` turns an object into a byte array and
`loads` turns a byte array back into an object (default `pickle`). -/
structure Serializer (α : Type) where
  dumps : α → Bytes
  loads : Bytes → α

/-- The round-trip property the spec assumes of serializers. -/
def Serializer.RoundTrip {α : Type} (s : Serializer α) : Prop :=
  ∀ x, s.loads (s.dumps x) = x

/-! #### Python dictionaries as association lists

A Python `dict` is modelled by the list of its key-value pairs in iteration
order; the keys of a `dict` are pairwise distinct.  `dGet`, `dPut`, `dDel`
model subscript lookup, subscript assignment and `del`. -/

section DictDefs

variable {K V : Type} [DecidableEq K] [DecidableEq V]

/-- A dict, as its items in iteration order. -/
abbrev Items (K V : Type) := List (K × V)

/-- The keys of a dict, in order. -/
def keysOf (l : Items K V) : List K := l.map Prod.fst

/-- `m[k]` as an option (`None` when `k not in m`). -/
def dGet : Items K V → K → Option V
  | [], _ => none
  | (k', v) :: t, k => if k' = k then some v else dGet t k

/-- `k in m`. -/
def dHas (m : Items K V) (k : K) : Bool := (dGet m k).isSome

/-- `m[k] = v`: replace in place if the key exists, append otherwise
(CPython dicts preserve insertion order). -/
def dPut : Items K V → K → V → Items K V
  | [], k, v => [(k, v)]
  | (k', v') :: t, k, v =>
      if k' = k then (k', v) :: t else (k', v') :: dPut t k v

/-- `del m[k]`. -/
def dDel (m : Items K V) (k : K) : Items K V :=
  m.filter (fun p => !decide (p.1 = k))

end DictDefs

/-! #### `_dict_eq` (collections.py lines 269-318)

`_dict_eq(a, b)` compares two dicts by iterating both in lockstep, keeping
the so-far-unmatched items of `a` in `am` and those of `b` in `bm`.
`dictEqRun` returns the boolean result together with a flag that records
whether the `len(am) + len(bm) > size` early exit fired, so that the claim
about that early exit can be stated. -/

section DictEqDefs

variable {K V : Type} [DecidableEq K] [DecidableEq V]

/-- Outcome of one loop iteration / of the whole loop of `_dict_eq`:
keep going with updated miss-dicts, `return False` from one of the three
value-comparison sites, or `return False` from the size early exit. -/
inductive DRes (K V : Type) where
  | cont : Items K V → Items K V → DRes K V
  | mismatch : DRes K V
  | early : DRes K V
  deriving DecidableEq

/-- The `if ak in bm: ... else: am[ak] = av` half of the loop body. -/
def stepA (am bm : Items K V) (ak : K) (av : V) :
    Option (Items K V × Items K V) :=
  match dGet bm ak with
  | some w => if w = av then some (am, dDel bm ak) else none
  | none => some (dPut am ak av, bm)

/-- The `if bk in am: ... else: bm[bk] = bv` half of the loop body. -/
def stepB (am bm : Items K V) (bk : K) (bv : V) :
    Option (Items K V × Items K V) :=
  match dGet am bk with
  | some w => if w = bv then some (dDel am bk, bm) else none
  | none => some (am, dPut bm bk bv)

/-- One iteration of the `for ak, av in iteritems(a)` loop. -/
def dictEqStep (size : Nat) (am bm : Items K V)
    (ak : K) (av : V) (bk : K) (bv : V) : DRes K V :=
  if ak = bk then
    if av = bv then
      if am.length + bm.length > size then .early else .cont am bm
    else .mismatch
  else
    match stepA am bm ak av with
    | none => .mismatch
    | some (am1, bm1) =>
        match stepB am1 bm1 bk bv with
        | none => .mismatch
        | some (am2, bm2) =>
            if am2.length + bm2.length > size then .early else .cont am2 bm2

/-- The whole loop, over the zipped item sequences. -/
def dictEqLoop (size : Nat) :
    List ((K × V) × (K × V)) → Items K V → Items K V → DRes K V
  | [], am, bm => .cont am bm
  | p :: rest, am, bm =>
      match dictEqStep size am bm p.1.1 p.1.2 p.2.1 p.2.2 with
      | .cont am1 bm1 => dictEqLoop size rest am1 bm1
      | .mismatch => .mismatch
      | .early => .early

/-- `_dict_eq`, instrumented: first component is the returned boolean,
second is `true` exactly when `False` was returned by the
`len(am) + len(bm) > size` early exit. -/
def dictEqRun (a b : Items K V) : Bool × Bool :=
  if a.length ≠ b.length then (false, false)
  else
    match dictEqLoop a.length (a.zip b) [] [] with
    | .cont am bm => (decide (am.length + bm.length = 0), false)
    | .mismatch => (false, false)
    | .early => (false, true)

/-- `_dict_eq(a, b)` itself. -/
def dict_eq (a b : Items K V) : Bool := (dictEqRun a b).1

/-- "`a` and `b` contain exactly the same key-value pairs." -/
def SamePairs (a b : Items K V) : Prop := ∀ p : K × V, p ∈ a ↔ p ∈ b

instance samePairsDecidable (a b : Items K V) : Decidable (SamePairs a b) := by
  unfold SamePairs
  have : (∀ p ∈ a, p ∈ b) ∧ (∀ p ∈ b, p ∈ a) ↔ ∀ p : K × V, p ∈ a ↔ p ∈ b := by
    constructor
    · intro h p
      exact ⟨fun hp => h.1 p hp, fun hp => h.2 p hp⟩
    · intro h
      exact ⟨fun p hp => (h p).1 hp, fun p hp => (h p).2 hp⟩
  exact decidable_of_iff _ this

/-- Loop invariant data: the items of `x` whose key has not been matched
in `y`.  Along the loop, `am = missA aseen bseen` and `bm = missA bseen
aseen` where `aseen`, `bseen` are the processed prefixes. -/
def missA (x y : Items K V) : Items K V :=
  x.filter (fun p => !dHas y p.1)

/-- Value agreement on common keys of two item lists. -/
def Agrees (x y : Items K V) : Prop :=
  ∀ p ∈ x, ∀ q ∈ y, p.1 = q.1 → p.2 = q.2

end DictEqDefs

/-! #### The remote store and its commands -/

/-- A value held at a Redis key, tagged with its remote type.  `other`
stands for a Redis type the library does not handle (e.g. a stream). -/
inductive RVal where
  | str : Bytes → RVal
  | list : List Bytes → RVal
  | set : List Bytes → RVal
  | hash : List (Bytes × Bytes) → RVal
  | zset : List (Bytes × Int) → RVal
  | other : RVal
  deriving DecidableEq, Repr

/-- The remote store: keys with their typed values. -/
abbrev Store := List (Bytes × RVal)

/-- Key lookup (`EXISTS` / `TYPE` / `GET` support). -/
def Store.lookup (s : Store) (k : Bytes) : Option RVal := dGet s k

/-- Bind a key to a value. -/
def Store.setKey (s : Store) (k : Bytes) (v : RVal) : Store := dPut s k v

/-- `DEL`. -/
def Store.delKey (s : Store) (k : Bytes) : Store := dDel s k

/-- The remote commands the library issues. -/
inductive Cmd where
  | del : Bytes → Cmd
  | setStr : Bytes → Bytes → Cmd
  | setexStr : Bytes → Nat → Bytes → Cmd
  | rpush : Bytes → List Bytes → Cmd
  | sadd : Bytes → List Bytes → Cmd
  | hset : Bytes → Bytes → Bytes → Cmd
  | zadd : Bytes → List (Int × Bytes) → Cmd
  | expire : Bytes → Nat → Cmd
  deriving DecidableEq, Repr

/-- Does a command carry an expiration time? -/
def Cmd.hasTTL : Cmd → Bool
  | .setexStr _ _ _ => true
  | .expire _ _ => true
  | _ => false

/-- `SADD` member semantics: append members not already present. -/
def saddList (cur : List Bytes) : List Bytes → List Bytes
  | [] => cur
  | b :: rest => if b ∈ cur then saddList cur rest else saddList (cur ++ [b]) rest

/-- `ZADD` member semantics: set each member's score, inserting new
members. -/
def zaddList (cur : List (Bytes × Int)) : List (Int × Bytes) → List (Bytes × Int)
  | [] => cur
  | (sc, mem) :: rest => zaddList (dPut cur mem sc) rest

/-- Apply one command to the store.  A command the real server rejects
(`RPUSH`/`SADD`/`ZADD` with no members is an arity error, an operand of the
wrong type is `WRONGTYPE`) is an error.  `EXPIRE`/`SETEX` timing itself
lives on the server, so the expiration time does not change the stored
value; claims about TTL passthrough are stated on the command trace. -/
def applyCmd (s : Store) : Cmd → Except PyError Store
  | .del k => .ok (s.delKey k)
  | .setStr k b => .ok (s.setKey k (.str b))
  | .setexStr k _ b => .ok (s.setKey k (.str b))
  | .rpush k bs =>
      if bs = [] then .error .responseError
      else match s.lookup k with
        | none => .ok (s.setKey k (.list bs))
        | some (.list l) => .ok (s.setKey k (.list (l ++ bs)))
        | some _ => .error .wrongType
  | .sadd k bs =>
      if bs = [] then .error .responseError
      else match s.lookup k with
        | none => .ok (s.setKey k (.set (saddList [] bs)))
        | some (.set l) => .ok (s.setKey k (.set (saddList l bs)))
        | some _ => .error .wrongType
  | .hset k f v =>
      match s.lookup k with
        | none => .ok (s.setKey k (.hash (dPut [] f v)))
        | some (.hash h) => .ok (s.setKey k (.hash (dPut h f v)))
        | some _ => .error .wrongType
  | .zadd k pairs =>
      if pairs = [] then .error .responseError
      else match s.lookup k with
        | none => .ok (s.setKey k (.zset (zaddList [] pairs)))
        | some (.zset z) => .ok (s.setKey k (.zset (zaddList z pairs)))
        | some _ => .error .wrongType
  | .expire _ _ => .ok s

/-- Apply a command list left to right, failing on the first error. -/
def applyCmds : Store → List Cmd → Except PyError Store
  | s, [] => .ok s
  | s, c :: rest =>
      match applyCmd s c with
      | .ok s2 => applyCmds s2 rest
      | .error e => .error e

/-- Run a command list left to right, keeping each command's effect as it
executes.  The library's `transaction` calls never enter `MULTI` (no
`pipe.multi()` after `watch`), so commands execute immediately: when a
later command errors, the effects of the earlier ones persist. -/
def runCmds : Store → List Cmd → Option PyError × Store
  | s, [] => (none, s)
  | s, c :: rest =>
      match applyCmd s c with
      | .ok s2 => runCmds s2 rest
      | .error e => (some e, s)

/-- Outcome of running a mutating operation: the raised exception if any,
with the resulting store.  An exception raised before any command is sent
(the `Except.error` case) leaves the store untouched; a command error
mid-trace keeps the effects already applied (`runCmds`). -/
def runTrace (s : Store) (r : Except PyError (List Cmd)) :
    Option PyError × Store :=
  match r with
  | .error e => (some e, s)
  | .ok tr => runCmds s tr

/-! #### `ObjectRedis` (collections.py lines 13-221) -/

/-- `ObjectRedis.__init__`: the namespace argument is encoded as bytes and
`b":::"` is appended (`':'` is byte 58). -/
def mkNamespace (nsBytes : Bytes) : Bytes := nsBytes ++ [58, 58, 58]

/-- `ObjectRedis._ns`: prepend the namespace (when set) to the serialized
key. -/
def nsKey {κ : Type} (nsOpt : Option Bytes) (ks : Serializer κ) (key : κ) :
    Bytes :=
  match nsOpt with
  | some n => n ++ ks.dumps key
  | none => ks.dumps key

/-- `ObjectRedis._dns`: strip the namespace (`ValueError` when it does not
match) and deserialize. -/
def dnsKey {κ : Type} (nsOpt : Option Bytes) (ks : Serializer κ)
    (bkey : Bytes) : Except PyError κ :=
  match nsOpt with
  | some n =>
      if n.isPrefixOf bkey then .ok (ks.loads (bkey.drop n.length))
      else .error .valueError
  | none => .ok (ks.loads bkey)

/-- Result of `ObjectRedis.__getitem__`: a deserialized scalar, or a lazy
wrapper object holding the Redis key it is bound to. -/
inductive GetResult (α : Type) where
  | scalar : α → GetResult α
  | listRef : Bytes → GetResult α
  | setRef : Bytes → GetResult α
  | hashRef : Bytes → GetResult α
  | zsetRef : Bytes → GetResult α
  deriving DecidableEq, Repr

/-- `ObjectRedis.__getitem__` with the default `missing` handler (raise
`KeyError`).  The remote `type` call sees store state `s1`; the later `get`
call sees `s2`, which may differ if the value changed in between. -/
def getitem {κ α : Type} (nsOpt : Option Bytes) (ser : Serializer α)
    (ks : Serializer κ) (s1 s2 : Store) (key : κ) :
    Except PyError (GetResult α) :=
  let rkey := nsKey nsOpt ks key
  match s1.lookup rkey with
  | none => .error .keyError
  | some (.str _) =>
      match s2.lookup rkey with
      | some (.str b) => .ok (.scalar (ser.loads b))
      | none => .error .keyError
      | some _ => .error .wrongType
  | some (.list _) => .ok (.listRef rkey)
  | some (.set _) => .ok (.setRef rkey)
  | some (.hash _) => .ok (.hashRef rkey)
  | some (.zset _) => .ok (.zsetRef rkey)
  | some .other => .error .notImplementedError

/-- The shapes of Python values `ObjectRedis.set` distinguishes via
`dir(value)`: list-like (`__imul__` and `__iter__`), set-like (`__xor__`
and `__iter__`), dict-like (`__getitem__`, no `index`), score-map-like
(`__getitem__` with `index` and `values`, e.g. another sorted-set wrapper);
anything else is a scalar. -/
inductive PyVal (α : Type) where
  | scalar : α → PyVal α
  | pylist : List α → PyVal α
  | pyset : List α → PyVal α
  | pydict : List (α × α) → PyVal α
  | pyzdict : List (α × Int) → PyVal α

/-- `RedisSet.update(*others)` (flattened): hash every item (`TypeError`
on an unhashable one, before anything is sent), serialize, and issue one
`SADD` unless there is nothing to add. -/
def setUpdateCmds {α : Type} (hsh : α → Bool) (ser : Serializer α)
    (name : Bytes) (items : List α) : Except PyError (List Cmd) :=
  if items.all hsh then
    .ok (if items.map ser.dumps = [] then []
         else [.sadd name (items.map ser.dumps)])
  else .error .typeError

/-- `RedisDict.update` inside `ObjectRedis.set`: one `HSET` per pair
(each key is hashed by `RedisDict.__setitem__`; note the value serializer
is used for the hash fields as well, per `collections.py` line 129). -/
def dictUpdateCmds {α : Type} (ser : Serializer α) (name : Bytes)
    (kvs : List (α × α)) : List Cmd :=
  kvs.map (fun p => .hset name (ser.dumps p.1) (ser.dumps p.2))

/-- `RedisSortedSet.update`: a single `ZADD` with all (score, member)
pairs (`v + 0` models the `v + 0.0` coercion). -/
def zsetUpdateCmds {α : Type} (ser : Serializer α) (name : Bytes)
    (kvs : List (α × Int)) : List Cmd :=
  [.zadd name (kvs.map (fun p => (p.2 + 0, ser.dumps p.1)))]

/-- `ObjectRedis.set(key, value, ttl)` as the command trace of its single
transaction (or its single `SET`/`SETEX` for scalars).  The first statement
of the method is `key.__hash__()`; `khsh`/`vhsh` tell which keys/items are
hashable. -/
def objSetCmds {κ α : Type} (khsh : κ → Bool) (vhsh : α → Bool)
    (nsOpt : Option Bytes) (ser : Serializer α) (ks : Serializer κ)
    (key : κ) (value : PyVal α) (ttl : Option Nat) :
    Except PyError (List Cmd) :=
  if khsh key then
    let bkey := nsKey nsOpt ks key
    let expTail : List Cmd := match ttl with
      | some t => [Cmd.expire bkey t]
      | none => []
    match value with
    | .scalar v =>
        match ttl with
        | none => .ok [.setStr bkey (ser.dumps v)]
        | some t => .ok [.setexStr bkey t (ser.dumps v)]
    | .pylist xs =>
        .ok ([Cmd.del bkey, Cmd.rpush bkey (xs.map ser.dumps)] ++ expTail)
    | .pyset xs =>
        match setUpdateCmds vhsh ser bkey xs with
        | .ok cs => .ok ([Cmd.del bkey] ++ cs ++ expTail)
        | .error e => .error e
    | .pydict kvs =>
        if kvs.all (fun p => vhsh p.1) then
          .ok ([Cmd.del bkey] ++ dictUpdateCmds ser bkey kvs ++ expTail)
        else .error .typeError
    | .pyzdict kvs =>
        .ok ([Cmd.del bkey] ++ zsetUpdateCmds ser bkey kvs ++ expTail)
  else .error .typeError

/-- `ObjectRedis.set` run against a store. -/
def objSetRun {κ α : Type} (khsh : κ → Bool) (vhsh : α → Bool)
    (nsOpt : Option Bytes) (ser : Serializer α) (ks : Serializer κ)
    (s : Store) (key : κ) (value : PyVal α) (ttl : Option Nat) :
    Option PyError × Store :=
  runTrace s (objSetCmds khsh vhsh nsOpt ser ks key value ttl)

/-- `ObjectRedis.__delitem__`: `KeyError` iff `redis.delete` removed
nothing. -/
def objDelitem {κ : Type} (nsOpt : Option Bytes) (ks : Serializer κ)
    (s : Store) (key : κ) : Option PyError × Store :=
  let rkey := nsKey nsOpt ks key
  match s.lookup rkey with
  | none => (some .keyError, s)
  | some _ => (none, s.delKey rkey)

/-! #### The wrapper collections -/

/-- `RedisDict.__setitem__`: hash the key (`TypeError` when unhashable),
then `HSET`. -/
def dictSetitemRun {α : Type} (hsh : α → Bool) (ser kser : Serializer α)
    (h : List (Bytes × Bytes)) (item value : α) :
    Option PyError × List (Bytes × Bytes) :=
  if hsh item then (none, dPut h (kser.dumps item) (ser.dumps value))
  else (some .typeError, h)

/-- `RedisDict.__delitem__`: `KeyError` iff `HDEL` removed nothing. -/
def dictDelitem {α : Type} (kser : Serializer α)
    (h : List (Bytes × Bytes)) (item : α) :
    Option PyError × List (Bytes × Bytes) :=
  if dHas h (kser.dumps item) then (none, dDel h (kser.dumps item))
  else (some .keyError, h)

/-- `RedisSortedSet.__setitem__`: hash the key, then
`ZADD name (value + 0.0) member`. -/
def zsetSetitemRun {α : Type} (hsh : α → Bool) (ser : Serializer α)
    (z : List (Bytes × Int)) (key : α) (value : Int) :
    Option PyError × List (Bytes × Int) :=
  if hsh key then (none, dPut z (ser.dumps key) (value + 0))
  else (some .typeError, z)

/-- `RedisSortedSet.__delitem__`: `KeyError` iff `ZREM` removed nothing. -/
def zsetDelitem {α : Type} (ser : Serializer α)
    (z : List (Bytes × Int)) (value : α) :
    Option PyError × List (Bytes × Int) :=
  if dHas z (ser.dumps value) then (none, dDel z (ser.dumps value))
  else (some .keyError, z)

/-- `RedisSet.update` run against a set state. -/
def setUpdateRun {α : Type} (hsh : α → Bool) (ser : Serializer α)
    (st : List Bytes) (items : List α) : Option PyError × List Bytes :=
  if items.all hsh then (none, saddList st (items.map ser.dumps))
  else (some .typeError, st)

/-- `RedisList.__iter__` read back: `lrange(name, 0, llen)`,
deserialized in order. -/
def listMembers {α : Type} (ser : Serializer α) (s : Store) (name : Bytes) :
    List α :=
  match s.lookup name with
  | some (.list l) => l.map ser.loads
  | _ => []

/-- `RedisSet.__iter__` read back (`sscan_iter`), deserialized. -/
def setMembers {α : Type} (ser : Serializer α) (s : Store) (name : Bytes) :
    List α :=
  match s.lookup name with
  | some (.set l) => l.map ser.loads
  | _ => []

/-- `RedisDict.items` read back (`hscan_iter`), deserialized. -/
def hashItems {α : Type} (ser kser : Serializer α) (s : Store)
    (name : Bytes) : List (α × α) :=
  match s.lookup name with
  | some (.hash h) => h.map (fun p => (kser.loads p.1, ser.loads p.2))
  | _ => []

/-- `RedisSortedSet.items` read back (`zscan_iter`); the server's
score-sorted iteration order is abstracted as the stored order, the claims
compare item sets. -/
def zsetItems {α : Type} (ser : Serializer α) (s : Store) (name : Bytes) :
    List (α × Int) :=
  match s.lookup name with
  | some (.zset z) => z.map (fun p => (ser.loads p.1, p.2))
  | _ => []

/-! #### `RedisList.insert` (collections.py lines 377-391) -/

/-- Redis `LSET` (used only at a valid index). -/
def lset (l : List Bytes) (i : Nat) (b : Bytes) : List Bytes := l.set i b

/-- Redis `LINSERT name BEFORE pivot v`: insert before the first
occurrence of the pivot; no-op when the pivot is absent. -/
def linsertBefore : List Bytes → Bytes → Bytes → List Bytes
  | [], _, _ => []
  | x :: t, pivot, v =>
      if x = pivot then v :: x :: t else x :: linsertBefore t pivot v

/-- Redis `LINSERT name AFTER pivot v`. -/
def linsertAfter : List Bytes → Bytes → Bytes → List Bytes
  | [], _, _ => []
  | x :: t, pivot, v =>
      if x = pivot then x :: v :: t else x :: linsertAfter t pivot v

/-- Redis `LREM name 1 b`: remove the first occurrence. -/
def lremFirst : List Bytes → Bytes → List Bytes
  | [], _ => []
  | x :: t, b => if x = b then t else x :: lremFirst t b

/-- `RedisList.__insert(pipe, index, value)`: the body of the transaction
`RedisList.insert` runs on the list's key, for a non-negative index;
`token` is the random marker `b'-=-INSERTING-=-' + _token()` and `bval`
the serialized value. -/
def listInsert (l : List Bytes) (index : Nat) (bval token : Bytes) :
    List Bytes :=
  if l.length ≤ index then l ++ [bval]
  else
    match l.get? index with
    | none => l
    | some current =>
        lremFirst
          (linsertAfter (linsertBefore (lset l index token) token bval)
            token current)
          token

/-! #### `RedisTTLSet` (ttl.py lines 45-135)

The clock is passed explicitly: each method uses a single `now` for all its
`self.time()` reads (`RedisTime` serves a cached clock between refreshes). -/

/-- The sorted-set state behind a `RedisTTLSet`: serialized members with
their expiry deadlines as scores. -/
abbrev ZSet := List (Bytes × Int)

/-- `RedisTTLSet.__cleanup`: `zremrangebyscore(name, -inf, now)` removes
every member with score at or below the clock. -/
def ttlCleanup (z : ZSet) (now : Int) : ZSet :=
  z.filter (fun p => decide (now < p.2))

/-- `RedisTTLSet.__contains__`: read the score; absent means `False`; a
score strictly below the clock means expired, so discard it and answer
`False`. -/
def ttlContains {α : Type} (ser : Serializer α) (z : ZSet) (now : Int)
    (item : α) : Bool × ZSet :=
  match dGet z (ser.dumps item) with
  | none => (false, z)
  | some expiry =>
      if expiry < now then (false, dDel z (ser.dumps item))
      else (true, z)

/-- `RedisTTLSet.add`: store the deadline `time() + ttl` as the member's
score (via `RedisSortedSet.__setitem__`). -/
def ttlAdd {α : Type} (hsh : α → Bool) (ser : Serializer α) (z : ZSet)
    (now ttl : Int) (item : α) : Option PyError × ZSet :=
  zsetSetitemRun hsh ser z item (now + ttl)

/-- `RedisTTLSet.__len__`: cleanup, then `zcard`. -/
def ttlLen (z : ZSet) (now : Int) : Nat × ZSet :=
  ((ttlCleanup z now).length, ttlCleanup z now)

/-- `RedisTTLSet.__iter__`: cleanup, then yield every member, re-checking
(and possibly skipping) any member whose score reads below the clock. -/
def ttlIter {α : Type} (ser : Serializer α) (z : ZSet) (now : Int) :
    List α :=
  (ttlCleanup z now).foldr
    (fun p acc =>
      if p.2 < now then
        (if (ttlContains ser (ttlCleanup z now) now (ser.loads p.1)).1 then
          ser.loads p.1 :: acc
        else acc)
      else ser.loads p.1 :: acc) []

/-- A concrete round-tripping serializer on `Nat` for the concrete
instances: `dumps n = [n]`, `loads` takes the head. -/
def natSer : Serializer Nat := ⟨fun n => [n], fun b => b.headI⟩

/-! ### Part 2: theorems -/

theorem Serializer.RoundTrip.dumps_injective {α : Type} {s : Serializer α}
    (h : s.RoundTrip) : Function.Injective s.dumps := by
  intro x y hxy
  have hx := h x
  rw [hxy, h y] at hx
  exact hx.symm

section DictLemmas

variable {K V : Type} [DecidableEq K] [DecidableEq V]

@[simp] theorem keysOf_nil : keysOf ([] : Items K V) = [] := rfl

@[simp] theorem keysOf_cons (k : K) (v : V) (t : Items K V) :
    keysOf ((k, v) :: t) = k :: keysOf t := rfl

theorem keysOf_append (l₁ l₂ : Items K V) :
    keysOf (l₁ ++ l₂) = keysOf l₁ ++ keysOf l₂ := by
  simp [keysOf]

theorem keysOf_mem {l : Items K V} {p : K × V} (h : p ∈ l) :
    p.1 ∈ keysOf l :=
  List.mem_map_of_mem Prod.fst h

@[simp] theorem dGet_nil (k : K) : dGet ([] : Items K V) k = none := rfl

@[simp] theorem dGet_cons (k' : K) (v : V) (t : Items K V) (k : K) :
    dGet ((k', v) :: t) k = if k' = k then some v else dGet t k := rfl

theorem dGet_append (l₁ l₂ : Items K V) (k : K) :
    dGet (l₁ ++ l₂) k = ((dGet l₁ k).or (dGet l₂ k)) := by
  induction l₁ with
  | nil => simp
  | cons p t ih =>
      obtain ⟨k', v⟩ := p
      by_cases h : k' = k <;> simp [h, ih]

theorem dGet_eq_none_iff (l : Items K V) (k : K) :
    dGet l k = none ↔ k ∉ keysOf l := by
  induction l with
  | nil => simp
  | cons p t ih =>
      obtain ⟨k', v⟩ := p
      by_cases h : k' = k
      · subst h
        simp
      · have h2 : ¬ k = k' := fun he => h he.symm
        simp [h, h2, ih]

theorem dGet_isSome_iff (l : Items K V) (k : K) :
    (dGet l k).isSome = true ↔ k ∈ keysOf l := by
  rw [Option.isSome_iff_ne_none]
  constructor
  · intro h
    by_contra hk
    exact h ((dGet_eq_none_iff l k).2 hk)
  · intro h hn
    exact ((dGet_eq_none_iff l k).1 hn) h

theorem dGet_mem (l : Items K V) (k : K) (v : V) (h : dGet l k = some v) :
    (k, v) ∈ l := by
  induction l with
  | nil => simp at h
  | cons p t ih =>
      obtain ⟨k', v'⟩ := p
      by_cases hk : k' = k
      · subst hk
        simp at h
        subst h
        exact List.mem_cons_self _ _
      · simp [hk] at h
        exact List.mem_cons_of_mem _ (ih h)

theorem dGet_of_mem_nodup (l : Items K V) (k : K) (v : V)
    (hnd : (keysOf l).Nodup) (h : (k, v) ∈ l) : dGet l k = some v := by
  induction l with
  | nil => simp at h
  | cons p t ih =>
      obtain ⟨k', v'⟩ := p
      rw [keysOf_cons, List.nodup_cons] at hnd
      rcases List.mem_cons.1 h with h1 | h1
      · injection h1 with hk hv
        subst hk; subst hv
        simp
      · have hk : ¬ k' = k := by
          intro he
          exact hnd.1 (by rw [he]; exact keysOf_mem h1)
        simp [hk]
        exact ih hnd.2 h1

theorem dPut_of_not_mem (l : Items K V) (k : K) (v : V)
    (h : k ∉ keysOf l) : dPut l k v = l ++ [(k, v)] := by
  induction l with
  | nil => rfl
  | cons p t ih =>
      obtain ⟨k', v'⟩ := p
      rw [keysOf_cons, List.mem_cons] at h
      push_neg at h
      have hne : ¬ k' = k := fun he => h.1 he.symm
      simp [dPut, hne, ih h.2]

theorem dHas_iff (l : Items K V) (k : K) : dHas l k = true ↔ k ∈ keysOf l := by
  rw [dHas, dGet_isSome_iff]

theorem dHas_eq_false (l : Items K V) (k : K) :
    dHas l k = false ↔ k ∉ keysOf l := by
  rw [← Bool.not_eq_true, dHas_iff]

theorem dGet_filterKey (P : K → Bool) (l : Items K V) (k : K) :
    dGet (l.filter (fun p => P p.1)) k = if P k then dGet l k else none := by
  induction l with
  | nil => simp
  | cons p t ih =>
      obtain ⟨k', v⟩ := p
      by_cases hk : k' = k
      · subst hk
        by_cases hP : P k' <;> simp [hP, ih]
      · by_cases hP : P k' <;> simp [hP, hk, ih]

theorem keysOf_filterKey (P : K → Bool) (l : Items K V) :
    keysOf (l.filter (fun p => P p.1)) = (keysOf l).filter P := by
  induction l with
  | nil => simp
  | cons p t ih =>
      obtain ⟨k', v⟩ := p
      by_cases hP : P k' <;> simp [hP, ih]

theorem dHas_append (l₁ l₂ : Items K V) (k : K) :
    dHas (l₁ ++ l₂) k = (dHas l₁ k || dHas l₂ k) := by
  rw [dHas, dHas, dHas, dGet_append]
  cases dGet l₁ k <;> simp [Option.or]

@[simp] theorem dHas_single (k' : K) (v : V) (k : K) :
    dHas [(k', v)] k = decide (k' = k) := by
  by_cases h : k' = k <;> simp [dHas, h]

theorem filterKey_ne_eq_self (l : Items K V) (k : K) (h : k ∉ keysOf l) :
    l.filter (fun p => !decide (p.1 = k)) = l := by
  apply List.filter_eq_self.2
  intro p hp
  simp only [Bool.not_eq_true', decide_eq_false_iff_not]
  intro he
  exact h (he ▸ keysOf_mem hp)

theorem dDel_eq_self (l : Items K V) (k : K) (h : k ∉ keysOf l) :
    dDel l k = l :=
  filterKey_ne_eq_self l k h

end DictLemmas

section DictEqLemmas

variable {K V : Type} [DecidableEq K] [DecidableEq V]

theorem not_mem_keysOf_missA {x y : Items K V} {k : K} (h : k ∉ keysOf x) :
    k ∉ keysOf (missA x y) := by
  rw [missA, keysOf_filterKey (fun k2 => !dHas y k2) x]
  intro hk
  exact h (List.mem_of_mem_filter hk)

theorem not_mem_keysOf_dDel {m : Items K V} {k : K} (k2 : K)
    (h : k ∉ keysOf m) : k ∉ keysOf (dDel m k2) := by
  rw [dDel, keysOf_filterKey (fun k3 => !decide (k3 = k2)) m]
  intro hk
  exact h (List.mem_of_mem_filter hk)

theorem mem_of_mem_missA {x y : Items K V} {p : K × V}
    (h : p ∈ missA x y) : p ∈ x :=
  List.mem_of_mem_filter h

theorem dGet_missA_of_not_has {x y : Items K V} {k : K}
    (h : k ∉ keysOf y) : dGet (missA x y) k = dGet x k := by
  rw [missA, dGet_filterKey (fun k2 => !dHas y k2) x k]
  have hy : dHas y k = false := (dHas_eq_false y k).2 h
  rw [hy]
  simp

theorem missA_snoc_left (x y : Items K V) (ak : K) (av : V) :
    missA (x ++ [(ak, av)]) y =
      missA x y ++ (if dHas y ak then [] else [(ak, av)]) := by
  rw [missA, List.filter_append]
  congr 1
  by_cases h : dHas y ak <;> simp [h, missA]

theorem missA_snoc_right (x y : Items K V) (bk : K) (bv : V) :
    missA x (y ++ [(bk, bv)]) = dDel (missA x y) bk := by
  rw [missA, missA, dDel, List.filter_filter]
  apply List.filter_congr
  intro p hp
  rw [dHas_append, dHas_single]
  by_cases h2 : bk = p.1
  · rw [decide_eq_true h2, decide_eq_true h2.symm]
    simp
  · rw [decide_eq_false h2, decide_eq_false (fun he => h2 he.symm)]
    simp

theorem missA_snoc_snoc (x y : Items K V) (ak bk : K) (av bv : V)
    (hk : ¬ bk = ak) :
    missA (x ++ [(ak, av)]) (y ++ [(bk, bv)]) =
      dDel (missA x y) bk ++ (if dHas y ak then [] else [(ak, av)]) := by
  rw [missA_snoc_left, missA_snoc_right]
  congr 1
  have : dHas (y ++ [(bk, bv)]) ak = dHas y ak := by
    rw [dHas_append, dHas_single]
    simp [hk]
  rw [this]

theorem missA_snoc_snoc_eq (x y : Items K V) (ak : K) (av bv : V)
    (hx : ak ∉ keysOf x) :
    missA (x ++ [(ak, av)]) (y ++ [(ak, bv)]) = missA x y := by
  rw [missA_snoc_left, missA_snoc_right]
  have h1 : dHas (y ++ [(ak, bv)]) ak = true := by
    rw [dHas_append, dHas_single]
    simp
  rw [h1]
  simp
  exact dDel_eq_self _ _ (not_mem_keysOf_missA hx)

theorem missA_length (x y : Items K V) (hx : (keysOf x).Nodup) :
    (missA x y).length =
      ((keysOf x).filter (fun k => !dHas y k)).toFinset.card := by
  have h1 : (missA x y).length = (keysOf (missA x y)).length := by
    rw [keysOf, List.length_map]
  rw [h1, missA, keysOf_filterKey (fun k => !dHas y k) x]
  exact (List.toFinset_card_of_nodup (hx.filter _)).symm

theorem SamePairs.keys_iff {a b : Items K V} (h : SamePairs a b) (k : K) :
    k ∈ keysOf a ↔ k ∈ keysOf b := by
  constructor <;> intro hk
  · rw [keysOf, List.mem_map] at hk
    obtain ⟨p, hp, hpk⟩ := hk
    exact hpk ▸ keysOf_mem ((h p).1 hp)
  · rw [keysOf, List.mem_map] at hk
    obtain ⟨p, hp, hpk⟩ := hk
    exact hpk ▸ keysOf_mem ((h p).2 hp)

/-- The counting argument behind the `len(am) + len(bm) > size` early exit:
when the two dicts have the same keys, the unmatched portions of any two
nodup fragments fit inside the common key set. -/
theorem miss_count_le (a b x y : Items K V)
    (hand : (keysOf a).Nodup)
    (hx : (keysOf x).Nodup) (hy : (keysOf y).Nodup)
    (hxa : ∀ k ∈ keysOf x, k ∈ keysOf a)
    (hyb : ∀ k ∈ keysOf y, k ∈ keysOf b)
    (hsame : SamePairs a b) :
    (missA x y).length + (missA y x).length ≤ a.length := by
  rw [missA_length x y hx, missA_length y x hy]
  set S := ((keysOf x).filter (fun k => !dHas y k)).toFinset with hS
  set T := ((keysOf y).filter (fun k => !dHas x k)).toFinset with hT
  have hSmem : ∀ k, k ∈ S → k ∈ keysOf x ∧ k ∉ keysOf y := by
    intro k hk
    rw [hS, List.mem_toFinset, List.mem_filter] at hk
    refine ⟨hk.1, ?_⟩
    have := hk.2
    simp only [Bool.not_eq_true'] at this
    exact (dHas_eq_false y k).1 this
  have hTmem : ∀ k, k ∈ T → k ∈ keysOf y ∧ k ∉ keysOf x := by
    intro k hk
    rw [hT, List.mem_toFinset, List.mem_filter] at hk
    refine ⟨hk.1, ?_⟩
    have := hk.2
    simp only [Bool.not_eq_true'] at this
    exact (dHas_eq_false x k).1 this
  have hdisj : Disjoint S T := by
    rw [Finset.disjoint_left]
    intro k hkS hkT
    exact (hTmem k hkT).2 (hSmem k hkS).1
  have hsub : S ∪ T ⊆ (keysOf a).toFinset := by
    intro k hk
    rw [List.mem_toFinset]
    rcases Finset.mem_union.1 hk with hk | hk
    · exact hxa k (hSmem k hk).1
    · exact (hsame.keys_iff k).2 (hyb k (hTmem k hk).1)
  calc S.card + T.card = (S ∪ T).card := (Finset.card_union_of_disjoint hdisj).symm
    _ ≤ (keysOf a).toFinset.card := Finset.card_le_card hsub
    _ = (keysOf a).length := List.toFinset_card_of_nodup hand
    _ = a.length := by rw [keysOf, List.length_map]

/-- Any two equal-valued items at a common key; used at the three
`return False` value-comparison sites. -/
theorem not_same_of_two_values {a b : Items K V}
    (hb : (keysOf b).Nodup)
    {k : K} {v w : V} (hva : (k, v) ∈ a) (hwb : (k, w) ∈ b) (hne : ¬ v = w) :
    ¬ SamePairs a b := by
  intro hs
  have hvb : (k, v) ∈ b := (hs _).1 hva
  have h1 := dGet_of_mem_nodup b k v hb hvb
  have h2 := dGet_of_mem_nodup b k w hb hwb
  rw [h1] at h2
  exact hne (Option.some.inj h2)

theorem not_same_of_overflow {a b x y : Items K V}
    (hand : (keysOf a).Nodup)
    (hx : (keysOf x).Nodup) (hy : (keysOf y).Nodup)
    (hxa : ∀ k ∈ keysOf x, k ∈ keysOf a)
    (hyb : ∀ k ∈ keysOf y, k ∈ keysOf b)
    (hover : (missA x y).length + (missA y x).length > a.length) :
    ¬ SamePairs a b :=
  fun hs => absurd (miss_count_le a b x y hand hx hy hxa hyb hs)
    (not_le.2 hover)

theorem Agrees.extend {x y : Items K V} {ak bk : K} {av bv : V}
    (hag : Agrees x y)
    (hA : ∀ qk qv, (qk, qv) ∈ y → qk = ak → qv = av)
    (hB : ∀ pk pv, (pk, pv) ∈ x → pk = bk → pv = bv)
    (hnew : ak = bk → av = bv) :
    Agrees (x ++ [(ak, av)]) (y ++ [(bk, bv)]) := by
  intro p hp q hq hpq
  obtain ⟨pk, pv⟩ := p
  obtain ⟨qk, qv⟩ := q
  simp only at hpq
  rcases List.mem_append.1 hp with hp | hp
  · rcases List.mem_append.1 hq with hq | hq
    · exact hag _ hp _ hq hpq
    · simp at hq
      obtain ⟨h1, h2⟩ := hq
      subst h1; subst h2
      exact hB pk pv hp hpq
  · simp at hp
    obtain ⟨h1, h2⟩ := hp
    subst h1; subst h2
    rcases List.mem_append.1 hq with hq | hq
    · exact (hA qk qv hq hpq.symm).symm
    · simp at hq
      obtain ⟨h1, h2⟩ := hq
      subst h1; subst h2
      exact hnew hpq

/-- The main loop invariant of `_dict_eq`: along the unfinished loop,
`am` and `bm` are exactly the unmatched items of the processed prefixes,
and the processed prefixes agree on common keys.  A `mismatch` or `early`
exit proves the dicts unequal; finishing the loop yields the unmatched
items of the full dicts. -/
theorem dictEqLoop_spec (a b : Items K V)
    (ha : (keysOf a).Nodup) (hb : (keysOf b).Nodup) :
    ∀ (arest brest aseen bseen : Items K V),
      a = aseen ++ arest → b = bseen ++ brest →
      arest.length = brest.length →
      Agrees aseen bseen →
      ((dictEqLoop a.length (arest.zip brest)
          (missA aseen bseen) (missA bseen aseen) = DRes.mismatch →
            ¬ SamePairs a b) ∧
       (dictEqLoop a.length (arest.zip brest)
          (missA aseen bseen) (missA bseen aseen) = DRes.early →
            ¬ SamePairs a b) ∧
       (∀ am2 bm2, dictEqLoop a.length (arest.zip brest)
          (missA aseen bseen) (missA bseen aseen) = DRes.cont am2 bm2 →
            am2 = missA a b ∧ bm2 = missA b a ∧ Agrees a b)) := by
  intro arest
  induction arest with
  | nil =>
      intro brest aseen bseen hea heb hlen hag
      have hbrest : brest = [] := List.length_eq_zero.1 (by simpa using hlen.symm)
      subst hbrest
      rw [List.append_nil] at hea heb
      subst hea
      subst heb
      refine ⟨?_, ?_, ?_⟩
      · intro h
        simp [dictEqLoop] at h
      · intro h
        simp [dictEqLoop] at h
      · intro am2 bm2 h
        simp only [List.zip_nil_left, dictEqLoop, DRes.cont.injEq] at h
        exact ⟨h.1.symm, h.2.symm, hag⟩
  | cons hd atl ih =>
      intro brest aseen bseen hea heb hlen hag
      obtain ⟨ak, av⟩ := hd
      cases brest with
      | nil => simp at hlen
      | cons hd2 btl =>
        obtain ⟨bk, bv⟩ := hd2
        have hlen2 : atl.length = btl.length := by simpa using hlen
        have hkeysa : keysOf a = keysOf aseen ++ ak :: keysOf atl := by
          rw [hea, keysOf_append, keysOf_cons]
        have hkeysb : keysOf b = keysOf bseen ++ bk :: keysOf btl := by
          rw [heb, keysOf_append, keysOf_cons]
        have hndA := ha
        rw [hkeysa, List.nodup_append] at hndA
        have haseen_nd : (keysOf aseen).Nodup := hndA.1
        have hak : ak ∉ keysOf aseen := fun h => hndA.2.2 h (List.mem_cons_self _ _)
        have hndB := hb
        rw [hkeysb, List.nodup_append] at hndB
        have hbseen_nd : (keysOf bseen).Nodup := hndB.1
        have hbk : bk ∉ keysOf bseen := fun h => hndB.2.2 h (List.mem_cons_self _ _)
        have hmemA : (ak, av) ∈ a := by
          rw [hea]; exact List.mem_append_right _ (List.mem_cons_self _ _)
        have hmemB : (bk, bv) ∈ b := by
          rw [heb]; exact List.mem_append_right _ (List.mem_cons_self _ _)
        have hsubA : ∀ p : K × V, p ∈ aseen → p ∈ a := by
          intro p hp; rw [hea]; exact List.mem_append_left _ hp
        have hsubB : ∀ p : K × V, p ∈ bseen → p ∈ b := by
          intro p hp; rw [heb]; exact List.mem_append_left _ hp
        have hxa : ∀ k ∈ keysOf aseen, k ∈ keysOf a := by
          intro k hk; rw [hkeysa]; exact List.mem_append_left _ hk
        have hyb : ∀ k ∈ keysOf bseen, k ∈ keysOf b := by
          intro k hk; rw [hkeysb]; exact List.mem_append_left _ hk
        have hxa2 : ∀ k ∈ keysOf (aseen ++ [(ak, av)]), k ∈ keysOf a := by
          intro k hk
          rw [keysOf_append] at hk
          rcases List.mem_append.1 hk with hk | hk
          · exact hxa k hk
          · simp [keysOf] at hk
            subst hk
            rw [hkeysa]
            exact List.mem_append_right _ (List.mem_cons_self _ _)
        have hyb2 : ∀ k ∈ keysOf (bseen ++ [(bk, bv)]), k ∈ keysOf b := by
          intro k hk
          rw [keysOf_append] at hk
          rcases List.mem_append.1 hk with hk | hk
          · exact hyb k hk
          · simp [keysOf] at hk
            subst hk
            rw [hkeysb]
            exact List.mem_append_right _ (List.mem_cons_self _ _)
        have hndA2 : (keysOf (aseen ++ [(ak, av)])).Nodup := by
          rw [keysOf_append]
          refine List.Nodup.append haseen_nd (List.nodup_singleton _) ?_
          intro k hk1 hk2
          simp [keysOf] at hk2
          subst hk2
          exact hak hk1
        have hndB2 : (keysOf (bseen ++ [(bk, bv)])).Nodup := by
          rw [keysOf_append]
          refine List.Nodup.append hbseen_nd (List.nodup_singleton _) ?_
          intro k hk1 hk2
          simp [keysOf] at hk2
          subst hk2
          exact hbk hk1
        have hea2 : a = (aseen ++ [(ak, av)]) ++ atl := by
          rw [hea, List.append_assoc, List.singleton_append]
        have heb2 : b = (bseen ++ [(bk, bv)]) ++ btl := by
          rw [heb, List.append_assoc, List.singleton_append]
        by_cases hk : ak = bk
        · subst hk
          by_cases hv : av = bv
          · subst hv
            have hTA : missA (aseen ++ [(ak, av)]) (bseen ++ [(ak, av)]) =
                missA aseen bseen := missA_snoc_snoc_eq aseen bseen ak av av hak
            have hTB : missA (bseen ++ [(ak, av)]) (aseen ++ [(ak, av)]) =
                missA bseen aseen := missA_snoc_snoc_eq bseen aseen ak av av hbk
            have hag2 : Agrees (aseen ++ [(ak, av)]) (bseen ++ [(ak, av)]) := by
              refine hag.extend ?_ ?_ (fun _ => rfl)
              · intro qk qv hq hq1
                have hqmem : qk ∈ keysOf bseen := keysOf_mem hq
                rw [hq1] at hqmem
                exact absurd hqmem hbk
              · intro pk pv hp hp1
                have hpmem : pk ∈ keysOf aseen := keysOf_mem hp
                rw [hp1] at hpmem
                exact absurd hpmem hak
            by_cases hsz : (missA aseen bseen).length +
                (missA bseen aseen).length > a.length
            · have hloop : dictEqLoop a.length
                  (((ak, av) :: atl).zip ((ak, av) :: btl))
                  (missA aseen bseen) (missA bseen aseen) = DRes.early := by
                simp [List.zip_cons_cons, dictEqLoop, dictEqStep, hsz]
              rw [hloop]
              exact ⟨fun h => by simp at h,
                fun _ => not_same_of_overflow ha haseen_nd hbseen_nd hxa hyb hsz,
                fun am2 bm2 h => by simp at h⟩
            · have hloop : dictEqLoop a.length
                  (((ak, av) :: atl).zip ((ak, av) :: btl))
                  (missA aseen bseen) (missA bseen aseen) =
                  dictEqLoop a.length (List.zipWith Prod.mk atl btl)
                    (missA aseen bseen) (missA bseen aseen) := by
                simp [List.zip_cons_cons, dictEqLoop, dictEqStep, hsz]
              have hrec := ih btl (aseen ++ [(ak, av)]) (bseen ++ [(ak, av)])
                hea2 heb2 hlen2 hag2
              rw [hTA, hTB] at hrec
              rw [hloop]
              exact hrec
          · have hloop : dictEqLoop a.length
                (((ak, av) :: atl).zip ((ak, bv) :: btl))
                (missA aseen bseen) (missA bseen aseen) = DRes.mismatch := by
              simp [List.zip_cons_cons, dictEqLoop, dictEqStep, hv]
            rw [hloop]
            exact ⟨fun _ => not_same_of_two_values hb hmemA hmemB hv,
              fun h => by simp at h, fun am2 bm2 h => by simp at h⟩
        · -- ak ≠ bk
          have hkr : ¬ bk = ak := fun he => hk he.symm
          have hgetbm : dGet (missA bseen aseen) ak = dGet bseen ak :=
            dGet_missA_of_not_has hak
          have hgetam : dGet (missA aseen bseen) bk = dGet aseen bk :=
            dGet_missA_of_not_has hbk
          have hTAgen := missA_snoc_snoc aseen bseen ak bk av bv hkr
          have hTBgen := missA_snoc_snoc bseen aseen bk ak bv av hk
          cases hga : dGet bseen ak with
          | some w =>
            have hhasA : dHas bseen ak = true := by rw [dHas, hga]; rfl
            rw [hhasA] at hTAgen
            simp only [if_true, List.append_nil] at hTAgen
            by_cases hw : w = av
            · cases hgb : dGet aseen bk with
              | some w2 =>
                have hhasB : dHas aseen bk = true := by rw [dHas, hgb]; rfl
                rw [hhasB] at hTBgen
                simp only [if_true, List.append_nil] at hTBgen
                by_cases hw2 : w2 = bv
                · have hag2 : Agrees (aseen ++ [(ak, av)]) (bseen ++ [(bk, bv)]) := by
                    refine hag.extend ?_ ?_ (fun he => absurd he hk)
                    · intro qk qv hq hq1
                      have h1 : dGet bseen qk = some qv :=
                        dGet_of_mem_nodup bseen qk qv hbseen_nd hq
                      rw [hq1, hga] at h1
                      exact ((Option.some.inj h1).symm.trans hw)
                    · intro pk pv hp hp1
                      have h1 : dGet aseen pk = some pv :=
                        dGet_of_mem_nodup aseen pk pv haseen_nd hp
                      rw [hp1, hgb] at h1
                      exact ((Option.some.inj h1).symm.trans hw2)
                  by_cases hsz : (dDel (missA aseen bseen) bk).length +
                      (dDel (missA bseen aseen) ak).length > a.length
                  · have hloop : dictEqLoop a.length
                        (((ak, av) :: atl).zip ((bk, bv) :: btl))
                        (missA aseen bseen) (missA bseen aseen) = DRes.early := by
                      simp [List.zip_cons_cons, dictEqLoop, dictEqStep, hk,
                        stepA, stepB, hgetbm, hga, hw, hgetam, hgb, hw2, hsz]
                    rw [hloop]
                    refine ⟨fun h => by simp at h, fun _ => ?_,
                      fun am2 bm2 h => by simp at h⟩
                    refine not_same_of_overflow ha hndA2 hndB2 hxa2 hyb2 ?_
                    rw [hTAgen, hTBgen]
                    exact hsz
                  · have hloop : dictEqLoop a.length
                        (((ak, av) :: atl).zip ((bk, bv) :: btl))
                        (missA aseen bseen) (missA bseen aseen) =
                        dictEqLoop a.length (List.zipWith Prod.mk atl btl)
                          (dDel (missA aseen bseen) bk)
                          (dDel (missA bseen aseen) ak) := by
                      simp [List.zip_cons_cons, dictEqLoop, dictEqStep, hk,
                        stepA, stepB, hgetbm, hga, hw, hgetam, hgb, hw2, hsz]
                    have hrec := ih btl (aseen ++ [(ak, av)]) (bseen ++ [(bk, bv)])
                      hea2 heb2 hlen2 hag2
                    rw [hTAgen, hTBgen] at hrec
                    rw [hloop]
                    exact hrec
                · -- stepB value mismatch
                  have hloop : dictEqLoop a.length
                      (((ak, av) :: atl).zip ((bk, bv) :: btl))
                      (missA aseen bseen) (missA bseen aseen) = DRes.mismatch := by
                    simp [List.zip_cons_cons, dictEqLoop, dictEqStep, hk,
                      stepA, stepB, hgetbm, hga, hw, hgetam, hgb, hw2]
                  rw [hloop]
                  exact ⟨fun _ => not_same_of_two_values hb
                      (hsubA _ (dGet_mem aseen bk w2 hgb)) hmemB hw2,
                    fun h => by simp at h, fun am2 bm2 h => by simp at h⟩
              | none =>
                have hhasB : dHas aseen bk = false := by rw [dHas, hgb]; rfl
                rw [hhasB] at hTBgen
                simp only [Bool.false_eq_true, if_false] at hTBgen
                have hbkA : bk ∉ keysOf aseen := (dGet_eq_none_iff aseen bk).1 hgb
                have hdelA : dDel (missA aseen bseen) bk = missA aseen bseen :=
                  dDel_eq_self _ _ (not_mem_keysOf_missA hbkA)
                rw [hdelA] at hTAgen
                have hput : dPut (dDel (missA bseen aseen) ak) bk bv =
                    dDel (missA bseen aseen) ak ++ [(bk, bv)] :=
                  dPut_of_not_mem _ _ _ (not_mem_keysOf_dDel ak
                    (not_mem_keysOf_missA hbk))
                have hag2 : Agrees (aseen ++ [(ak, av)]) (bseen ++ [(bk, bv)]) := by
                  refine hag.extend ?_ ?_ (fun he => absurd he hk)
                  · intro qk qv hq hq1
                    have h1 : dGet bseen qk = some qv :=
                      dGet_of_mem_nodup bseen qk qv hbseen_nd hq
                    rw [hq1, hga] at h1
                    exact ((Option.some.inj h1).symm.trans hw)
                  · intro pk pv hp hp1
                    have hpmem : pk ∈ keysOf aseen := keysOf_mem hp
                    rw [hp1] at hpmem
                    exact absurd hpmem hbkA
                by_cases hsz : (missA aseen bseen).length +
                    (dDel (missA bseen aseen) ak ++ [(bk, bv)]).length > a.length
                · have hloop : dictEqLoop a.length
                      (((ak, av) :: atl).zip ((bk, bv) :: btl))
                      (missA aseen bseen) (missA bseen aseen) = DRes.early := by
                    simp [List.zip_cons_cons, dictEqLoop, dictEqStep, hk,
                      stepA, stepB, hgetbm, hga, hw, hgetam, hgb, hput]
                    rw [if_pos (by simp only [List.length_append, List.length_singleton] at hsz; omega)]
                  rw [hloop]
                  refine ⟨fun h => by simp at h, fun _ => ?_,
                    fun am2 bm2 h => by simp at h⟩
                  refine not_same_of_overflow ha hndA2 hndB2 hxa2 hyb2 ?_
                  rw [hTAgen, hTBgen]
                  exact hsz
                · have hloop : dictEqLoop a.length
                      (((ak, av) :: atl).zip ((bk, bv) :: btl))
                      (missA aseen bseen) (missA bseen aseen) =
                      dictEqLoop a.length (List.zipWith Prod.mk atl btl)
                        (missA aseen bseen)
                        (dDel (missA bseen aseen) ak ++ [(bk, bv)]) := by
                    simp [List.zip_cons_cons, dictEqLoop, dictEqStep, hk,
                      stepA, stepB, hgetbm, hga, hw, hgetam, hgb, hput]
                    rw [if_neg (by simp only [List.length_append, List.length_singleton] at hsz; omega)]
                  have hrec := ih btl (aseen ++ [(ak, av)]) (bseen ++ [(bk, bv)])
                    hea2 heb2 hlen2 hag2
                  rw [hTAgen, hTBgen] at hrec
                  rw [hloop]
                  exact hrec
            · -- stepA value mismatch
              have hloop : dictEqLoop a.length
                  (((ak, av) :: atl).zip ((bk, bv) :: btl))
                  (missA aseen bseen) (missA bseen aseen) = DRes.mismatch := by
                simp [List.zip_cons_cons, dictEqLoop, dictEqStep, hk,
                  stepA, hgetbm, hga, hw]
              rw [hloop]
              refine ⟨fun _ => ?_, fun h => by simp at h,
                fun am2 bm2 h => by simp at h⟩
              exact not_same_of_two_values hb hmemA
                (hsubB _ (dGet_mem bseen ak w hga)) (fun he => hw he.symm)
          | none =>
            have hhasA : dHas bseen ak = false := by rw [dHas, hga]; rfl
            rw [hhasA] at hTAgen
            simp only [Bool.false_eq_true, if_false] at hTAgen
            have hakB : ak ∉ keysOf bseen := (dGet_eq_none_iff bseen ak).1 hga
            have hdelB : dDel (missA bseen aseen) ak = missA bseen aseen :=
              dDel_eq_self _ _ (not_mem_keysOf_missA hakB)
            rw [hdelB] at hTBgen
            have hputA : dPut (missA aseen bseen) ak av =
                missA aseen bseen ++ [(ak, av)] :=
              dPut_of_not_mem _ _ _ (not_mem_keysOf_missA hak)
            have hgetam2 : dGet (missA aseen bseen ++ [(ak, av)]) bk =
                dGet aseen bk := by
              rw [dGet_append, hgetam]
              have h1 : dGet [(ak, av)] bk = none := by simp [hk]
              rw [h1, Option.or_none]
            cases hgb : dGet aseen bk with
            | some w2 =>
              have hhasB : dHas aseen bk = true := by rw [dHas, hgb]; rfl
              rw [hhasB] at hTBgen
              simp only [if_true, List.append_nil] at hTBgen
              by_cases hw2 : w2 = bv
              · have hdelapp : dDel (missA aseen bseen ++ [(ak, av)]) bk =
                    dDel (missA aseen bseen) bk ++ [(ak, av)] := by
                  rw [dDel, dDel, List.filter_append]
                  congr 1
                  simp [hk]
                have hag2 : Agrees (aseen ++ [(ak, av)]) (bseen ++ [(bk, bv)]) := by
                  refine hag.extend ?_ ?_ (fun he => absurd he hk)
                  · intro qk qv hq hq1
                    have hqmem : qk ∈ keysOf bseen := keysOf_mem hq
                    rw [hq1] at hqmem
                    exact absurd hqmem hakB
                  · intro pk pv hp hp1
                    have h1 : dGet aseen pk = some pv :=
                      dGet_of_mem_nodup aseen pk pv haseen_nd hp
                    rw [hp1, hgb] at h1
                    exact ((Option.some.inj h1).symm.trans hw2)
                by_cases hsz : (dDel (missA aseen bseen) bk ++ [(ak, av)]).length +
                    (missA bseen aseen).length > a.length
                · have hloop : dictEqLoop a.length
                      (((ak, av) :: atl).zip ((bk, bv) :: btl))
                      (missA aseen bseen) (missA bseen aseen) = DRes.early := by
                    simp [List.zip_cons_cons, dictEqLoop, dictEqStep, hk,
                      stepA, stepB, hgetbm, hga, hputA, hgetam2, hgb, hw2,
                      hdelapp]
                    rw [if_pos (by simp only [List.length_append, List.length_singleton] at hsz; omega)]
                  rw [hloop]
                  refine ⟨fun h => by simp at h, fun _ => ?_,
                    fun am2 bm2 h => by simp at h⟩
                  refine not_same_of_overflow ha hndA2 hndB2 hxa2 hyb2 ?_
                  rw [hTAgen, hTBgen]
                  exact hsz
                · have hloop : dictEqLoop a.length
                      (((ak, av) :: atl).zip ((bk, bv) :: btl))
                      (missA aseen bseen) (missA bseen aseen) =
                      dictEqLoop a.length (List.zipWith Prod.mk atl btl)
                        (dDel (missA aseen bseen) bk ++ [(ak, av)])
                        (missA bseen aseen) := by
                    simp [List.zip_cons_cons, dictEqLoop, dictEqStep, hk,
                      stepA, stepB, hgetbm, hga, hputA, hgetam2, hgb, hw2,
                      hdelapp]
                    rw [if_neg (by simp only [List.length_append, List.length_singleton] at hsz; omega)]
                  have hrec := ih btl (aseen ++ [(ak, av)]) (bseen ++ [(bk, bv)])
                    hea2 heb2 hlen2 hag2
                  rw [hTAgen, hTBgen] at hrec
                  rw [hloop]
                  exact hrec
              · have hloop : dictEqLoop a.length
                    (((ak, av) :: atl).zip ((bk, bv) :: btl))
                    (missA aseen bseen) (missA bseen aseen) = DRes.mismatch := by
                  simp [List.zip_cons_cons, dictEqLoop, dictEqStep, hk,
                    stepA, stepB, hgetbm, hga, hputA, hgetam2, hgb, hw2]
                rw [hloop]
                exact ⟨fun _ => not_same_of_two_values hb
                    (hsubA _ (dGet_mem aseen bk w2 hgb)) hmemB hw2,
                  fun h => by simp at h, fun am2 bm2 h => by simp at h⟩
            | none =>
              have hhasB : dHas aseen bk = false := by rw [dHas, hgb]; rfl
              rw [hhasB] at hTBgen
              simp only [Bool.false_eq_true, if_false] at hTBgen
              have hbkA : bk ∉ keysOf aseen := (dGet_eq_none_iff aseen bk).1 hgb
              have hdelA : dDel (missA aseen bseen) bk = missA aseen bseen :=
                dDel_eq_self _ _ (not_mem_keysOf_missA hbkA)
              rw [hdelA] at hTAgen
              have hputB : dPut (missA bseen aseen) bk bv =
                  missA bseen aseen ++ [(bk, bv)] :=
                dPut_of_not_mem _ _ _ (not_mem_keysOf_missA hbk)
              have hag2 : Agrees (aseen ++ [(ak, av)]) (bseen ++ [(bk, bv)]) := by
                refine hag.extend ?_ ?_ (fun he => absurd he hk)
                · intro qk qv hq hq1
                  have hqmem : qk ∈ keysOf bseen := keysOf_mem hq
                  rw [hq1] at hqmem
                  exact absurd hqmem hakB
                · intro pk pv hp hp1
                  have hpmem : pk ∈ keysOf aseen := keysOf_mem hp
                  rw [hp1] at hpmem
                  exact absurd hpmem hbkA
              by_cases hsz : (missA aseen bseen ++ [(ak, av)]).length +
                  (missA bseen aseen ++ [(bk, bv)]).length > a.length
              · have hloop : dictEqLoop a.length
                    (((ak, av) :: atl).zip ((bk, bv) :: btl))
                    (missA aseen bseen) (missA bseen aseen) = DRes.early := by
                  simp [List.zip_cons_cons, dictEqLoop, dictEqStep, hk,
                    stepA, stepB, hgetbm, hga, hputA, hgetam2, hgb, hputB]
                  rw [if_pos (by simp only [List.length_append, List.length_singleton] at hsz; omega)]
                rw [hloop]
                refine ⟨fun h => by simp at h, fun _ => ?_,
                  fun am2 bm2 h => by simp at h⟩
                refine not_same_of_overflow ha hndA2 hndB2 hxa2 hyb2 ?_
                rw [hTAgen, hTBgen]
                exact hsz
              · have hloop : dictEqLoop a.length
                    (((ak, av) :: atl).zip ((bk, bv) :: btl))
                    (missA aseen bseen) (missA bseen aseen) =
                    dictEqLoop a.length (List.zipWith Prod.mk atl btl)
                      (missA aseen bseen ++ [(ak, av)])
                      (missA bseen aseen ++ [(bk, bv)]) := by
                  simp [List.zip_cons_cons, dictEqLoop, dictEqStep, hk,
                    stepA, stepB, hgetbm, hga, hputA, hgetam2, hgb, hputB]
                  rw [if_neg (by simp only [List.length_append, List.length_singleton] at hsz; omega)]
                have hrec := ih btl (aseen ++ [(ak, av)]) (bseen ++ [(bk, bv)])
                  hea2 heb2 hlen2 hag2
                rw [hTAgen, hTBgen] at hrec
                rw [hloop]
                exact hrec

theorem SamePairs.length_eq {a b : Items K V}
    (ha : (keysOf a).Nodup) (hb : (keysOf b).Nodup) (h : SamePairs a b) :
    a.length = b.length := by
  have hna : a.Nodup := List.Nodup.of_map Prod.fst ha
  have hnb : b.Nodup := List.Nodup.of_map Prod.fst hb
  exact ((List.perm_ext_iff_of_nodup hna hnb).2 h).length_eq

theorem missA_eq_nil_of_same {a b : Items K V} (hs : SamePairs a b) :
    missA a b = [] := by
  rw [missA, List.filter_eq_nil_iff]
  intro p hp
  have hmem : p.1 ∈ keysOf b := keysOf_mem ((hs p).1 hp)
  rw [← dHas_iff] at hmem
  simp [hmem]

theorem same_of_miss_nil {a b : Items K V}
    (hA : missA a b = []) (hB : missA b a = []) (hagree : Agrees a b) :
    SamePairs a b := by
  have main : ∀ (x y : Items K V), missA x y = [] →
      (∀ p ∈ x, ∀ q ∈ y, p.1 = q.1 → p.2 = q.2) →
      ∀ pk pv, (pk, pv) ∈ x → (pk, pv) ∈ y := by
    intro x y hxy hag pk pv hp
    have hhas : dHas y pk = true := by
      by_contra hh
      rw [Bool.not_eq_true] at hh
      have hmem : (pk, pv) ∈ missA x y := by
        rw [missA, List.mem_filter]
        exact ⟨hp, by rw [hh]; rfl⟩
      rw [hxy] at hmem
      simp at hmem
    rw [dHas_iff, keysOf, List.mem_map] at hhas
    obtain ⟨q, hq, hqk⟩ := hhas
    obtain ⟨qk, qv⟩ := q
    have hkk : pk = qk := hqk.symm
    have hvv : pv = qv := hag (pk, pv) hp (qk, qv) hq hkk
    rw [hkk, hvv]
    exact hq
  intro p
  obtain ⟨pk, pv⟩ := p
  constructor
  · exact fun hp => main a b hA hagree pk pv hp
  · refine fun hp => main b a hB ?_ pk pv hp
    intro p hp2 q hq2 hpq
    exact (hagree q hq2 p hp2 hpq.symm).symm

/-- C1: `_dict_eq(a, b)` is `True` iff `a` and `b` hold exactly the same
key-value pairs; it is `False` whenever the lengths differ; and on equal
dicts the `len(am) + len(bm) > size` early exit never fires, whatever the
iteration orders.  The dict hypotheses are that keys are pairwise distinct,
as they are in a Python dict. -/
theorem dict_eq_correct (a b : Items K V)
    (ha : (keysOf a).Nodup) (hb : (keysOf b).Nodup) :
    (dict_eq a b = true ↔ SamePairs a b) ∧
    (a.length ≠ b.length → dict_eq a b = false) ∧
    (SamePairs a b → (dictEqRun a b).2 = false) := by
  by_cases hlen : a.length = b.length
  · have hmiss : (missA ([] : Items K V) ([] : Items K V)) = [] := rfl
    have h0 := dictEqLoop_spec a b ha hb a b [] []
      (by simp) (by simp) hlen (fun p hp => by simp at hp)
    rw [hmiss] at h0
    cases hres : dictEqLoop a.length (a.zip b) [] [] with
    | cont am bm =>
      obtain ⟨ham, hbm, hagree⟩ := h0.2.2 am bm hres
      have hrun : dictEqRun a b =
          (decide (am.length + bm.length = 0), false) := by
        rw [dictEqRun, if_neg (fun hc => hc hlen), hres]
      refine ⟨?_, fun hne => absurd hlen hne, fun _ => by rw [hrun]⟩
      rw [dict_eq, hrun]
      simp only [decide_eq_true_eq]
      constructor
      · intro hzero
        have ham0 : am = [] := List.length_eq_zero.1 (by omega)
        have hbm0 : bm = [] := List.length_eq_zero.1 (by omega)
        have hA : missA a b = [] := ham.symm.trans ham0
        have hB : missA b a = [] := hbm.symm.trans hbm0
        exact same_of_miss_nil hA hB hagree
      · intro hs
        have hA : missA a b = [] := missA_eq_nil_of_same hs
        have hB : missA b a = [] :=
          missA_eq_nil_of_same (fun p => (hs p).symm)
        rw [ham, hbm, hA, hB]
        rfl
    | mismatch =>
      have hns : ¬ SamePairs a b := h0.1 hres
      have hrun : dictEqRun a b = (false, false) := by
        rw [dictEqRun, if_neg (fun hc => hc hlen), hres]
      refine ⟨?_, fun hne => absurd hlen hne, fun hs => absurd hs hns⟩
      rw [dict_eq, hrun]
      exact iff_of_false (by simp) hns
    | early =>
      have hns : ¬ SamePairs a b := h0.2.1 hres
      have hrun : dictEqRun a b = (false, true) := by
        rw [dictEqRun, if_neg (fun hc => hc hlen), hres]
      refine ⟨?_, fun hne => absurd hlen hne, fun hs => absurd hs hns⟩
      rw [dict_eq, hrun]
      exact iff_of_false (by simp) hns
  · have hrun : dictEqRun a b = (false, false) := by
      rw [dictEqRun, if_pos hlen]
    refine ⟨?_, fun _ => by rw [dict_eq, hrun], fun hs => ?_⟩
    · rw [dict_eq, hrun]
      exact iff_of_false (by simp)
        (fun hs => hlen (hs.length_eq ha hb))
    · exact absurd (hs.length_eq ha hb) hlen

end DictEqLemmas

section MapUpdateLemmas

variable {K V : Type} [DecidableEq K] [DecidableEq V]

theorem dGet_dPut_self (l : Items K V) (k : K) (v : V) :
    dGet (dPut l k v) k = some v := by
  induction l with
  | nil => simp [dPut]
  | cons p t ih =>
      obtain ⟨k', v'⟩ := p
      by_cases h : k' = k
      · subst h
        simp [dPut]
      · simp [dPut, h, ih]

theorem dGet_dPut_ne (l : Items K V) (k k2 : K) (v : V) (h : ¬ k2 = k) :
    dGet (dPut l k v) k2 = dGet l k2 := by
  have h' : ¬ k = k2 := fun he => h he.symm
  induction l with
  | nil => simp [dPut, h']
  | cons p t ih =>
      obtain ⟨k', v'⟩ := p
      by_cases h2 : k' = k
      · subst h2
        simp [dPut, h']
      · simp [dPut, h2, ih]

theorem dGet_dDel_self (l : Items K V) (k : K) :
    dGet (dDel l k) k = none := by
  rw [dDel, dGet_filterKey (fun k3 => !decide (k3 = k)) l k]
  simp

theorem dGet_dDel_ne (l : Items K V) (k k2 : K) (h : ¬ k2 = k) :
    dGet (dDel l k) k2 = dGet l k2 := by
  rw [dDel, dGet_filterKey (fun k3 => !decide (k3 = k)) l k2]
  simp [h]

theorem dPut_self (l : Items K V) (k : K) (v : V)
    (h : dGet l k = some v) : dPut l k v = l := by
  induction l with
  | nil => simp at h
  | cons p t ih =>
      obtain ⟨k', v'⟩ := p
      by_cases h2 : k' = k
      · subst h2
        simp at h
        simp [dPut, h]
      · simp [h2] at h
        simp [dPut, h2, ih h]

theorem dPut_dPut_same (l : Items K V) (k : K) (v w : V) :
    dPut (dPut l k v) k w = dPut l k w := by
  induction l with
  | nil => simp [dPut]
  | cons p t ih =>
      obtain ⟨k', v'⟩ := p
      by_cases h : k' = k
      · subst h
        simp [dPut]
      · simp [dPut, h, ih]

/-- Appending fresh distinct keys with `dPut` just concatenates. -/
theorem foldl_dPut_fresh :
    ∀ (kvs : List (K × V)) (m : Items K V),
      (∀ p ∈ kvs, p.1 ∉ keysOf m) → (keysOf kvs).Nodup →
      kvs.foldl (fun h p => dPut h p.1 p.2) m = m ++ kvs
  | [], m, _, _ => by simp
  | p :: rest, m, hdisj, hnd => by
      obtain ⟨pk, pv⟩ := p
      rw [keysOf_cons, List.nodup_cons] at hnd
      have hfresh : pk ∉ keysOf m := hdisj (pk, pv) (List.mem_cons_self _ _)
      have hstep : dPut m pk pv = m ++ [(pk, pv)] :=
        dPut_of_not_mem m pk pv hfresh
      have hdisj2 : ∀ q ∈ rest, q.1 ∉ keysOf (m ++ [(pk, pv)]) := by
        intro q hq
        rw [keysOf_append]
        intro hmem
        rcases List.mem_append.1 hmem with hmem | hmem
        · exact hdisj q (List.mem_cons_of_mem _ hq) hmem
        · simp [keysOf] at hmem
          exact hnd.1 (hmem ▸ keysOf_mem hq)
      calc ((pk, pv) :: rest).foldl (fun h q => dPut h q.1 q.2) m
          = rest.foldl (fun h q => dPut h q.1 q.2) (m ++ [(pk, pv)]) := by
            rw [List.foldl_cons, hstep]
        _ = (m ++ [(pk, pv)]) ++ rest :=
            foldl_dPut_fresh rest (m ++ [(pk, pv)]) hdisj2 hnd.2
        _ = m ++ (pk, pv) :: rest := by
            rw [List.append_assoc, List.singleton_append]

end MapUpdateLemmas

section StoreLemmas

theorem Store.lookup_setKey_self (s : Store) (k : Bytes) (v : RVal) :
    (s.setKey k v).lookup k = some v :=
  dGet_dPut_self s k v

theorem Store.lookup_delKey_self (s : Store) (k : Bytes) :
    (s.delKey k).lookup k = none :=
  dGet_dDel_self s k

theorem Store.lookup_setKey_ne (s : Store) (k k2 : Bytes) (v : RVal)
    (h : ¬ k2 = k) : (s.setKey k v).lookup k2 = s.lookup k2 :=
  dGet_dPut_ne s k k2 v h

theorem Store.lookup_delKey_ne (s : Store) (k k2 : Bytes)
    (h : ¬ k2 = k) : (s.delKey k).lookup k2 = s.lookup k2 :=
  dGet_dDel_ne s k k2 h

end StoreLemmas

section ObjectRedisTheorems

/-- C7: with a round-tripping key serializer, `_dns` inverts `_ns`:
with a namespace set (`__init__` appends `b":::"` to it), `_ns` prepends
the namespace to the serialized key and `_dns` recovers the original key;
with no namespace, `_ns` just serializes; and `_dns` raises `ValueError`
on a stored key that does not start with the namespace. -/
theorem dns_ns_roundtrip {κ : Type} (ks : Serializer κ) (hks : ks.RoundTrip)
    (nsBytes : Bytes) (key : κ) (stored : Bytes) :
    (nsKey (some (mkNamespace nsBytes)) ks key =
      mkNamespace nsBytes ++ ks.dumps key) ∧
    (dnsKey (some (mkNamespace nsBytes)) ks
      (nsKey (some (mkNamespace nsBytes)) ks key) = .ok key) ∧
    (nsKey none ks key = ks.dumps key) ∧
    (dnsKey none ks (nsKey none ks key) = .ok key) ∧
    (¬ (mkNamespace nsBytes).isPrefixOf stored = true →
      dnsKey (some (mkNamespace nsBytes)) ks stored = .error .valueError) := by
  refine ⟨rfl, ?_, rfl, ?_, ?_⟩
  · rw [nsKey, dnsKey]
    have hpre : (mkNamespace nsBytes).isPrefixOf
        (mkNamespace nsBytes ++ ks.dumps key) = true := by
      rw [List.isPrefixOf_iff_prefix]
      exact List.prefix_append _ _
    rw [if_pos hpre, List.drop_left, hks key]
  · rw [nsKey, dnsKey, hks key]
  · intro h
    rw [dnsKey, if_neg h]

/-- C2: `ObjectRedis.__getitem__` dispatches on the remote type of the
namespaced key: a deserialized scalar for `string`, the matching wrapper
for `list`/`set`/`hash`/`zset`, the default missing handler (`KeyError`)
when the type is `none` or the string value vanished between the `type`
and `get` calls, and `NotImplementedError` for an unhandled remote type.
`s`/`s2` are the store states seen by the two remote calls. -/
theorem getitem_dispatch {κ α : Type} (nsOpt : Option Bytes)
    (ser : Serializer α) (ks : Serializer κ) (s s2 : Store) (key : κ)
    (b b2 : Bytes) (l : List Bytes) (st : List Bytes)
    (h : List (Bytes × Bytes)) (z : List (Bytes × Int)) :
    (getitem nsOpt ser ks (s.delKey (nsKey nsOpt ks key)) s2 key =
      .error .keyError) ∧
    (getitem nsOpt ser ks (s.setKey (nsKey nsOpt ks key) (.str b))
      (s2.setKey (nsKey nsOpt ks key) (.str b2)) key =
      .ok (.scalar (ser.loads b2))) ∧
    (getitem nsOpt ser ks (s.setKey (nsKey nsOpt ks key) (.list l)) s2 key =
      .ok (.listRef (nsKey nsOpt ks key))) ∧
    (getitem nsOpt ser ks (s.setKey (nsKey nsOpt ks key) (.set st)) s2 key =
      .ok (.setRef (nsKey nsOpt ks key))) ∧
    (getitem nsOpt ser ks (s.setKey (nsKey nsOpt ks key) (.hash h)) s2 key =
      .ok (.hashRef (nsKey nsOpt ks key))) ∧
    (getitem nsOpt ser ks (s.setKey (nsKey nsOpt ks key) (.zset z)) s2 key =
      .ok (.zsetRef (nsKey nsOpt ks key))) ∧
    (getitem nsOpt ser ks (s.setKey (nsKey nsOpt ks key) (.str b))
      (s2.delKey (nsKey nsOpt ks key)) key = .error .keyError) ∧
    (getitem nsOpt ser ks (s.setKey (nsKey nsOpt ks key) .other) s2 key =
      .error .notImplementedError) := by
  refine ⟨?_, ?_, ?_, ?_, ?_, ?_, ?_, ?_⟩ <;>
    simp [getitem, Store.lookup_setKey_self, Store.lookup_delKey_self]

/-- C9: an unhashable key (one whose `__hash__` call fails) raises
`TypeError` before any command is issued, leaving the remote state
unchanged, in `ObjectRedis.set`, `RedisDict.__setitem__`,
`RedisSortedSet.__setitem__` and `RedisSet.update`. -/
theorem unhashable_typeerror {κ α : Type} (khsh : κ → Bool)
    (vhsh ihsh : α → Bool) (nsOpt : Option Bytes)
    (ser kser : Serializer α) (ks : Serializer κ)
    (s : Store) (key : κ) (value : PyVal α) (ttl : Option Nat)
    (h : List (Bytes × Bytes)) (z : List (Bytes × Int))
    (item value2 : α) (sc : Int) (st : List Bytes) (items : List α)
    (hkey : khsh key = false) (hitem : ihsh item = false) :
    (objSetCmds khsh vhsh nsOpt ser ks key value ttl = .error .typeError) ∧
    (objSetRun khsh vhsh nsOpt ser ks s key value ttl = (some .typeError, s)) ∧
    (dictSetitemRun ihsh ser kser h item value2 = (some .typeError, h)) ∧
    (zsetSetitemRun ihsh ser z item sc = (some .typeError, z)) ∧
    (item ∈ items → setUpdateRun ihsh ser st items = (some .typeError, st)) := by
  have h1 : objSetCmds khsh vhsh nsOpt ser ks key value ttl =
      .error .typeError := by
    rw [objSetCmds]
    simp [hkey]
  refine ⟨h1, ?_, ?_, ?_, ?_⟩
  · rw [objSetRun, h1]
    rfl
  · simp [dictSetitemRun, hitem]
  · simp [zsetSetitemRun, hitem]
  · intro hmem
    have hall : items.all ihsh = false := by
      rw [← Bool.not_eq_true, List.all_eq_true]
      intro hcon
      rw [hcon item hmem] at hitem
      exact Bool.noConfusion hitem
    simp [setUpdateRun, hall]

/-- C10: deletion raises `KeyError` exactly when the store removed
nothing (`DEL`/`HDEL`/`ZREM` reporting 0 is exactly the key/member being
absent), leaving the state unchanged; a present key/member is removed
with no error. -/
theorem delitem_spec {κ α : Type} (nsOpt : Option Bytes) (ks : Serializer κ)
    (kser ser : Serializer α) (s : Store) (key : κ)
    (h : List (Bytes × Bytes)) (z : List (Bytes × Int)) (item value : α) :
    ((objDelitem nsOpt ks s key).1 = some .keyError ↔
        s.lookup (nsKey nsOpt ks key) = none) ∧
    (s.lookup (nsKey nsOpt ks key) = none →
        objDelitem nsOpt ks s key = (some .keyError, s)) ∧
    (∀ v, s.lookup (nsKey nsOpt ks key) = some v →
        objDelitem nsOpt ks s key = (none, s.delKey (nsKey nsOpt ks key)) ∧
        (s.delKey (nsKey nsOpt ks key)).lookup (nsKey nsOpt ks key) = none) ∧
    ((dictDelitem kser h item).1 = some .keyError ↔
        dGet h (kser.dumps item) = none) ∧
    (dGet h (kser.dumps item) = none →
        dictDelitem kser h item = (some .keyError, h)) ∧
    (dGet h (kser.dumps item) ≠ none →
        dictDelitem kser h item = (none, dDel h (kser.dumps item)) ∧
        dGet (dDel h (kser.dumps item)) (kser.dumps item) = none) ∧
    ((zsetDelitem ser z value).1 = some .keyError ↔
        dGet z (ser.dumps value) = none) ∧
    (dGet z (ser.dumps value) = none →
        zsetDelitem ser z value = (some .keyError, z)) ∧
    (dGet z (ser.dumps value) ≠ none →
        zsetDelitem ser z value = (none, dDel z (ser.dumps value)) ∧
        dGet (dDel z (ser.dumps value)) (ser.dumps value) = none) := by
  refine ⟨?_, ?_, ?_, ?_, ?_, ?_, ?_, ?_, ?_⟩
  · cases hl : Store.lookup s (nsKey nsOpt ks key) with
    | none => simp [objDelitem, hl]
    | some v => simp [objDelitem, hl]
  · intro hl
    simp [objDelitem, hl]
  · intro v hl
    exact ⟨by simp [objDelitem, hl], Store.lookup_delKey_self s _⟩
  · cases hl : dGet h (kser.dumps item) with
    | none => simp [dictDelitem, dHas, hl]
    | some v => simp [dictDelitem, dHas, hl]
  · intro hl
    simp [dictDelitem, dHas, hl]
  · intro hne
    cases hl : dGet h (kser.dumps item) with
    | none => exact absurd hl hne
    | some v =>
        exact ⟨by simp [dictDelitem, dHas, hl], dGet_dDel_self h _⟩
  · cases hl : dGet z (ser.dumps value) with
    | none => simp [zsetDelitem, dHas, hl]
    | some v => simp [zsetDelitem, dHas, hl]
  · intro hl
    simp [zsetDelitem, dHas, hl]
  · intro hne
    cases hl : dGet z (ser.dumps value) with
    | none => exact absurd hl hne
    | some v =>
        exact ⟨by simp [zsetDelitem, dHas, hl], dGet_dDel_self z _⟩

end ObjectRedisTheorems

section RedisListTheorems

theorem linsertBefore_append (t d : List Bytes) (pivot v : Bytes)
    (h : pivot ∉ t) :
    linsertBefore (t ++ pivot :: d) pivot v = t ++ v :: pivot :: d := by
  induction t with
  | nil => simp [linsertBefore]
  | cons x xs ih =>
      rw [List.mem_cons] at h
      push_neg at h
      have hx : ¬ x = pivot := fun he => h.1 he.symm
      simp [linsertBefore, hx, ih h.2]

theorem linsertAfter_append (t d : List Bytes) (pivot v : Bytes)
    (h : pivot ∉ t) :
    linsertAfter (t ++ pivot :: d) pivot v = t ++ pivot :: v :: d := by
  induction t with
  | nil => simp [linsertAfter]
  | cons x xs ih =>
      rw [List.mem_cons] at h
      push_neg at h
      have hx : ¬ x = pivot := fun he => h.1 he.symm
      simp [linsertAfter, hx, ih h.2]

theorem lremFirst_append (t d : List Bytes) (b : Bytes) (h : b ∉ t) :
    lremFirst (t ++ b :: d) b = t ++ d := by
  induction t with
  | nil => simp [lremFirst]
  | cons x xs ih =>
      rw [List.mem_cons] at h
      push_neg at h
      have hx : ¬ x = b := fun he => h.1 he.symm
      simp [lremFirst, hx, ih h.2]

/-- C5: `RedisList.insert(index, value)` runs its token dance as a single
transaction on the list's key and the effect is: append when the index is
at or past the end, otherwise place the value at `index` and shift the
element previously there and all later ones right by one.  The random
token is assumed to collide with nothing (`token ∉ l`, `token ≠ bval`). -/
theorem listInsert_spec (l : List Bytes) (index : Nat) (bval token : Bytes)
    (htok : token ∉ l) (htv : ¬ token = bval) :
    listInsert l index bval token =
      if l.length ≤ index then l ++ [bval]
      else l.take index ++ bval :: l.drop index := by
  by_cases hi : l.length ≤ index
  · simp [listInsert, hi]
  · push_neg at hi
    have hget : l.get? index = some (l.get ⟨index, hi⟩) := List.get?_eq_get hi
    have htake : token ∉ l.take index :=
      fun hm => htok (List.mem_of_mem_take hm)
    have hdrop : token ∉ l.drop (index + 1) :=
      fun hm => htok (List.mem_of_mem_drop hm)
    have htake2 : token ∉ l.take index ++ [bval] := by
      intro hm
      rcases List.mem_append.1 hm with hm | hm
      · exact htake hm
      · rw [List.mem_singleton] at hm
        exact htv hm
    have hset : lset l index token =
        l.take index ++ token :: l.drop (index + 1) := by
      rw [lset, List.set_eq_take_cons_drop _ hi]
    have hli : listInsert l index bval token =
        lremFirst
          (linsertAfter (linsertBefore (lset l index token) token bval)
            token (l.get ⟨index, hi⟩)) token := by
      rw [listInsert, if_neg (by omega), hget]
    rw [hli, hset, linsertBefore_append _ _ _ _ htake]
    have hre : l.take index ++ bval :: token :: l.drop (index + 1) =
        (l.take index ++ [bval]) ++ token :: l.drop (index + 1) := by
      rw [List.append_assoc, List.singleton_append]
    rw [hre, linsertAfter_append _ _ _ _ htake2,
      lremFirst_append _ _ _ htake2, if_neg (not_le.2 hi)]
    have hdropix : l.drop index = l.get ⟨index, hi⟩ :: l.drop (index + 1) := by
      rw [List.drop_eq_getElem_cons hi]
      rfl
    rw [hdropix, List.append_assoc, List.singleton_append]

end RedisListTheorems

section TTLTheorems

/-- After `__cleanup`, every remaining score is strictly above the clock,
so the deadline re-check in `__iter__` is never taken: iteration yields
exactly the non-expired members. -/
theorem ttlIter_yields {α : Type} (ser : Serializer α) (z : ZSet)
    (now : Int) :
    ttlIter ser z now = (ttlCleanup z now).map (fun p => ser.loads p.1) := by
  rw [ttlIter]
  have hmem : ∀ p ∈ ttlCleanup z now, ¬ p.2 < now := by
    intro p hp
    rw [ttlCleanup, List.mem_filter] at hp
    have h2 := hp.2
    rw [decide_eq_true_eq] at h2
    omega
  have aux : ∀ zc : ZSet, (∀ p ∈ zc, ¬ p.2 < now) →
      zc.foldr
        (fun p acc =>
          if p.2 < now then
            (if (ttlContains ser (ttlCleanup z now) now (ser.loads p.1)).1
              then ser.loads p.1 :: acc else acc)
          else ser.loads p.1 :: acc) [] =
        zc.map (fun p => ser.loads p.1) := by
    intro zc
    induction zc with
    | nil => intro _; rfl
    | cons p t ih =>
        intro hm
        rw [List.foldr_cons, if_neg (hm p (List.mem_cons_self _ _)),
          ih (fun q hq => hm q (List.mem_cons_of_mem _ hq)), List.map_cons]
  exact aux (ttlCleanup z now) hmem

/-- C8: `RedisTTLSet.add` stores expiry `clock + ttl` as the member's
score; `__contains__` treats a stored expiry strictly below the clock as
absent (answering `False` and removing the member), answers `True` on an
unexpired member, and `False` on an absent one; `__len__` and `__iter__`
first purge every member with expiry at or below the clock
(`zremrangebyscore(-inf, now)`) and then count / yield exactly the
remaining, non-expired members. -/
theorem ttlset_spec {α : Type} (hsh : α → Bool) (ser : Serializer α)
    (z : ZSet) (now ttlv : Int) (item : α) (e : Int)
    (hhash : hsh item = true) :
    ((ttlAdd hsh ser z now ttlv item).1 = none ∧
      dGet (ttlAdd hsh ser z now ttlv item).2 (ser.dumps item) =
        some (now + ttlv)) ∧
    (dGet z (ser.dumps item) = some e → e < now →
      ttlContains ser z now item = (false, dDel z (ser.dumps item))) ∧
    (dGet z (ser.dumps item) = some e → ¬ e < now →
      ttlContains ser z now item = (true, z)) ∧
    (dGet z (ser.dumps item) = none →
      ttlContains ser z now item = (false, z)) ∧
    (ttlLen z now =
      ((z.filter (fun p => decide (now < p.2))).length,
        z.filter (fun p => decide (now < p.2)))) ∧
    (ttlIter ser z now =
      (z.filter (fun p => decide (now < p.2))).map (fun p => ser.loads p.1)) := by
  refine ⟨⟨?_, ?_⟩, ?_, ?_, ?_, rfl, ttlIter_yields ser z now⟩
  · simp [ttlAdd, zsetSetitemRun, hhash]
  · simp [ttlAdd, zsetSetitemRun, hhash, dGet_dPut_self]
  · intro hl he
    simp [ttlContains, hl, he]
  · intro hl he
    simp [ttlContains, hl, he]
  · intro hl
    simp [ttlContains, hl]

/-- C4, amended part: the wrapper collections pass the caller's TTL through
unchanged (the C6 theorem), but `RedisTTLSet` is an expiration policy of
the library's own: `add` computes the deadline `clock + ttl` locally and
stores it as the member's score, and `__contains__` locally decides that a
member whose stored expiry is strictly below the clock is expired,
reporting it absent and removing it from the store. -/
theorem ttl_local_expiry {α : Type} (hsh : α → Bool) (ser : Serializer α)
    (z : ZSet) (now ttlv : Int) (item : α) (e : Int)
    (hhash : hsh item = true) :
    dGet (ttlAdd hsh ser z now ttlv item).2 (ser.dumps item) =
      some (now + ttlv) ∧
    (dGet z (ser.dumps item) = some e → e < now →
      ttlContains ser z now item = (false, dDel z (ser.dumps item)) ∧
      dGet (dDel z (ser.dumps item)) (ser.dumps item) = none) := by
  constructor
  · simp [ttlAdd, zsetSetitemRun, hhash, dGet_dPut_self]
  · intro hl he
    exact ⟨by simp [ttlContains, hl, he], dGet_dDel_self z _⟩

/-- C4, counterexample: a library operation that does decide expiry
locally.  The member `5` is still present in the remote sorted set (score
5), the clock reads 10, and `RedisTTLSet.__contains__` answers `False` and
issues the removal itself — the remote store never decided anything. -/
theorem ttl_local_expiry_counterexample :
    dGet ([([5], 5)] : ZSet) (natSer.dumps 5) = some 5 ∧
    ttlContains natSer ([([5], 5)] : ZSet) 10 5 = (false, []) := by
  constructor
  · decide
  · decide

end TTLTheorems

section TTLPassthrough

theorem setUpdateCmds_no_ttl {α : Type} (vhsh : α → Bool)
    (ser : Serializer α) (n : Bytes) (xs : List α) (cs : List Cmd)
    (hc : setUpdateCmds vhsh ser n xs = .ok cs) :
    cs.filter Cmd.hasTTL = [] := by
  rw [setUpdateCmds] at hc
  by_cases hall : xs.all vhsh
  · rw [if_pos hall] at hc
    injection hc with hc
    subst hc
    by_cases hnil : xs.map ser.dumps = [] <;>
      simp [hnil, Cmd.hasTTL]
  · rw [if_neg hall] at hc
    exact Except.noConfusion hc

/-- C6: `ObjectRedis.set(key, value, ttl)` passes the caller's `ttl` to
the remote store unchanged: a scalar with a TTL becomes exactly one
`SETEX` carrying exactly `ttl`; a collection with a TTL gets exactly one
`EXPIRE` carrying exactly `ttl` inside the same transaction trace; with
`ttl = None`, no expiration command of any kind is issued. -/
theorem set_ttl_passthrough {κ α : Type} (khsh : κ → Bool) (vhsh : α → Bool)
    (nsOpt : Option Bytes) (ser : Serializer α) (ks : Serializer κ)
    (key : κ) (v : α) (xs : List α) (kvs : List (α × α))
    (zkvs : List (α × Int)) (t : Nat)
    (hkey : khsh key = true) :
    (objSetCmds khsh vhsh nsOpt ser ks key (.scalar v) (some t) =
      .ok [.setexStr (nsKey nsOpt ks key) t (ser.dumps v)]) ∧
    (objSetCmds khsh vhsh nsOpt ser ks key (.scalar v) none =
      .ok [.setStr (nsKey nsOpt ks key) (ser.dumps v)]) ∧
    (∀ tr, objSetCmds khsh vhsh nsOpt ser ks key (.pylist xs) (some t) =
        .ok tr →
      tr.filter Cmd.hasTTL = [.expire (nsKey nsOpt ks key) t]) ∧
    (∀ tr, objSetCmds khsh vhsh nsOpt ser ks key (.pyset xs) (some t) =
        .ok tr →
      tr.filter Cmd.hasTTL = [.expire (nsKey nsOpt ks key) t]) ∧
    (∀ tr, objSetCmds khsh vhsh nsOpt ser ks key (.pydict kvs) (some t) =
        .ok tr →
      tr.filter Cmd.hasTTL = [.expire (nsKey nsOpt ks key) t]) ∧
    (∀ tr, objSetCmds khsh vhsh nsOpt ser ks key (.pyzdict zkvs) (some t) =
        .ok tr →
      tr.filter Cmd.hasTTL = [.expire (nsKey nsOpt ks key) t]) ∧
    (∀ (value : PyVal α) (tr),
      objSetCmds khsh vhsh nsOpt ser ks key value none = .ok tr →
      tr.filter Cmd.hasTTL = []) := by
  have hdict : ∀ kvs2 : List (α × α),
      (dictUpdateCmds ser (nsKey nsOpt ks key) kvs2).filter Cmd.hasTTL = [] := by
    intro kvs2
    rw [List.filter_eq_nil_iff]
    intro c hc
    rw [dictUpdateCmds, List.mem_map] at hc
    obtain ⟨p, _, hp⟩ := hc
    rw [← hp]
    simp [Cmd.hasTTL]
  refine ⟨?_, ?_, ?_, ?_, ?_, ?_, ?_⟩
  · simp [objSetCmds, hkey]
  · simp [objSetCmds, hkey]
  · intro tr htr
    rw [objSetCmds] at htr
    simp only [hkey, if_true] at htr
    injection htr with htr
    subst htr
    simp [Cmd.hasTTL]
  · intro tr htr
    rw [objSetCmds] at htr
    simp only [hkey, if_true] at htr
    cases hc : setUpdateCmds vhsh ser (nsKey nsOpt ks key) xs with
    | error e => rw [hc] at htr; exact Except.noConfusion htr
    | ok cs =>
        rw [hc] at htr
        injection htr with htr
        subst htr
        have hcs := setUpdateCmds_no_ttl vhsh ser _ xs cs hc
        simp [List.filter_append, hcs, Cmd.hasTTL]
  · intro tr htr
    rw [objSetCmds] at htr
    simp only [hkey, if_true] at htr
    by_cases hall : kvs.all (fun p => vhsh p.1)
    · rw [if_pos hall] at htr
      injection htr with htr
      subst htr
      simp [List.filter_append, hdict kvs, Cmd.hasTTL]
    · rw [if_neg hall] at htr
      exact Except.noConfusion htr
  · intro tr htr
    rw [objSetCmds] at htr
    simp only [hkey, if_true] at htr
    injection htr with htr
    subst htr
    simp [List.filter_append, zsetUpdateCmds, Cmd.hasTTL]
  · intro value tr htr
    cases value with
    | scalar v2 =>
        rw [objSetCmds] at htr
        simp only [hkey, if_true] at htr
        injection htr with htr
        subst htr
        simp [Cmd.hasTTL]
    | pylist xs2 =>
        rw [objSetCmds] at htr
        simp only [hkey, if_true] at htr
        injection htr with htr
        subst htr
        simp [Cmd.hasTTL]
    | pyset xs2 =>
        rw [objSetCmds] at htr
        simp only [hkey, if_true] at htr
        cases hc : setUpdateCmds vhsh ser (nsKey nsOpt ks key) xs2 with
        | error e => rw [hc] at htr; exact Except.noConfusion htr
        | ok cs =>
            rw [hc] at htr
            injection htr with htr
            subst htr
            have hcs := setUpdateCmds_no_ttl vhsh ser _ xs2 cs hc
            simp [List.filter_append, hcs, Cmd.hasTTL]
    | pydict kvs2 =>
        rw [objSetCmds] at htr
        simp only [hkey, if_true] at htr
        by_cases hall : kvs2.all (fun p => vhsh p.1)
        · rw [if_pos hall] at htr
          injection htr with htr
          subst htr
          simp [List.filter_append, hdict kvs2, Cmd.hasTTL]
        · rw [if_neg hall] at htr
          exact Except.noConfusion htr
    | pyzdict zkvs2 =>
        rw [objSetCmds] at htr
        simp only [hkey, if_true] at htr
        injection htr with htr
        subst htr
        simp [List.filter_append, zsetUpdateCmds, Cmd.hasTTL]

end TTLPassthrough

section RoundtripLemmas

theorem mem_saddList (b : Bytes) (bs : List Bytes) :
    ∀ cur, b ∈ saddList cur bs ↔ b ∈ cur ∨ b ∈ bs := by
  induction bs with
  | nil => intro cur; simp [saddList]
  | cons x rest ih =>
      intro cur
      by_cases hx : x ∈ cur
      · rw [saddList, if_pos hx, ih cur]
        constructor
        · rintro (h | h)
          · exact Or.inl h
          · exact Or.inr (List.mem_cons_of_mem _ h)
        · rintro (h | h)
          · exact Or.inl h
          · rcases List.mem_cons.1 h with h | h
            · subst h; exact Or.inl hx
            · exact Or.inr h
      · rw [saddList, if_neg hx, ih (cur ++ [x])]
        constructor
        · rintro (h | h)
          · rcases List.mem_append.1 h with h | h
            · exact Or.inl h
            · rw [List.mem_singleton] at h
              subst h
              exact Or.inr (List.mem_cons_self _ _)
          · exact Or.inr (List.mem_cons_of_mem _ h)
        · rintro (h | h)
          · exact Or.inl (List.mem_append_left _ h)
          · rcases List.mem_cons.1 h with h | h
            · subst h
              exact Or.inl (List.mem_append_right _ (List.mem_singleton_self _))
            · exact Or.inr h

theorem zaddList_eq_foldl (pairs : List (Int × Bytes)) :
    ∀ cur, zaddList cur pairs =
      pairs.foldl (fun acc q => dPut acc q.2 q.1) cur := by
  induction pairs with
  | nil => intro cur; rfl
  | cons q rest ih =>
      intro cur
      obtain ⟨sc, mem⟩ := q
      rw [zaddList, ih, List.foldl_cons]

theorem applyCmds_hsets (rk : Bytes) :
    ∀ (fvs : List (Bytes × Bytes)) (s : Store) (h0 : List (Bytes × Bytes)),
      s.lookup rk = some (.hash h0) →
      applyCmds s (fvs.map (fun p => Cmd.hset rk p.1 p.2)) =
        .ok (s.setKey rk (.hash (fvs.foldl (fun acc p => dPut acc p.1 p.2) h0)))
  | [], s, h0, hs => by
      have hid : s.setKey rk (RVal.hash h0) = s := dPut_self s rk _ hs
      simp [applyCmds, hid]
  | (f, v) :: rest, s, h0, hs => by
      have h1 : applyCmd s (Cmd.hset rk f v) =
          .ok (s.setKey rk (.hash (dPut h0 f v))) := by
        simp [applyCmd, hs]
      have h2 : (s.setKey rk (RVal.hash (dPut h0 f v))).lookup rk =
          some (.hash (dPut h0 f v)) := Store.lookup_setKey_self _ _ _
      calc applyCmds s (((f, v) :: rest).map (fun p => Cmd.hset rk p.1 p.2))
          = applyCmds (s.setKey rk (.hash (dPut h0 f v)))
              (rest.map (fun p => Cmd.hset rk p.1 p.2)) := by
            simp [applyCmds, h1]
        _ = .ok ((s.setKey rk (.hash (dPut h0 f v))).setKey rk
              (.hash (rest.foldl (fun acc p => dPut acc p.1 p.2)
                (dPut h0 f v)))) :=
            applyCmds_hsets rk rest _ _ h2
        _ = .ok (s.setKey rk (.hash (((f, v) :: rest).foldl
              (fun acc p => dPut acc p.1 p.2) h0))) := by
            rw [List.foldl_cons]
            exact congrArg Except.ok (dPut_dPut_same s rk _ _)

theorem applyCmds_hsets_fresh (rk : Bytes) (fvs : List (Bytes × Bytes))
    (s : Store) (hs : s.lookup rk = none) (hne : fvs ≠ []) :
    applyCmds s (fvs.map (fun p => Cmd.hset rk p.1 p.2)) =
      .ok (s.setKey rk
        (.hash (fvs.foldl (fun acc p => dPut acc p.1 p.2) []))) := by
  cases fvs with
  | nil => exact absurd rfl hne
  | cons q rest =>
      obtain ⟨f, v⟩ := q
      have h1 : applyCmd s (Cmd.hset rk f v) =
          .ok (s.setKey rk (.hash (dPut [] f v))) := by
        simp [applyCmd, hs]
      have h2 : (s.setKey rk (RVal.hash (dPut [] f v))).lookup rk =
          some (.hash (dPut [] f v)) := Store.lookup_setKey_self _ _ _
      calc applyCmds s (((f, v) :: rest).map (fun p => Cmd.hset rk p.1 p.2))
          = applyCmds (s.setKey rk (.hash (dPut [] f v)))
              (rest.map (fun p => Cmd.hset rk p.1 p.2)) := by
            simp [applyCmds, h1]
        _ = .ok ((s.setKey rk (.hash (dPut [] f v))).setKey rk
              (.hash (rest.foldl (fun acc p => dPut acc p.1 p.2)
                (dPut [] f v)))) :=
            applyCmds_hsets rk rest _ _ h2
        _ = .ok (s.setKey rk (.hash (((f, v) :: rest).foldl
              (fun acc p => dPut acc p.1 p.2) []))) := by
            rw [List.foldl_cons]
            exact congrArg Except.ok (dPut_dPut_same s rk _ _)

theorem runCmds_of_applyCmds :
    ∀ (tr : List Cmd) (s s2 : Store),
      applyCmds s tr = .ok s2 → runCmds s tr = (none, s2)
  | [], s, s2, h => by
      simp [applyCmds] at h
      simp [runCmds, h]
  | c :: rest, s, s2, h => by
      cases hc : applyCmd s c with
      | ok s3 =>
          rw [applyCmds, hc] at h
          rw [runCmds, hc]
          exact runCmds_of_applyCmds rest s3 s2 h
      | error e =>
          rw [applyCmds, hc] at h
          exact Except.noConfusion h

theorem set_get_scalar {κ α : Type} (khsh : κ → Bool) (vhsh : α → Bool)
    (nsOpt : Option Bytes) (ser : Serializer α) (ks : Serializer κ)
    (hser : ser.RoundTrip) (s : Store) (key : κ) (hkey : khsh key = true)
    (v : α) :
    objSetRun khsh vhsh nsOpt ser ks s key (.scalar v) none =
      (none, s.setKey (nsKey nsOpt ks key) (.str (ser.dumps v))) ∧
    getitem nsOpt ser ks
      (s.setKey (nsKey nsOpt ks key) (.str (ser.dumps v)))
      (s.setKey (nsKey nsOpt ks key) (.str (ser.dumps v))) key =
      .ok (.scalar v) := by
  constructor
  · have htr : objSetCmds khsh vhsh nsOpt ser ks key (.scalar v) none =
        .ok [Cmd.setStr (nsKey nsOpt ks key) (ser.dumps v)] := by
      simp [objSetCmds, hkey]
    rw [objSetRun, htr]
    simp [runTrace, runCmds, applyCmd]
  · simp [getitem, Store.lookup_setKey_self, hser v]

theorem set_get_list {κ α : Type} (khsh : κ → Bool) (vhsh : α → Bool)
    (nsOpt : Option Bytes) (ser : Serializer α) (ks : Serializer κ)
    (hser : ser.RoundTrip) (s : Store) (key : κ) (hkey : khsh key = true)
    (xs : List α) (hxs : xs ≠ []) :
    objSetRun khsh vhsh nsOpt ser ks s key (.pylist xs) none =
      (none, (s.delKey (nsKey nsOpt ks key)).setKey (nsKey nsOpt ks key)
        (.list (xs.map ser.dumps))) ∧
    getitem nsOpt ser ks
      ((s.delKey (nsKey nsOpt ks key)).setKey (nsKey nsOpt ks key)
        (.list (xs.map ser.dumps)))
      ((s.delKey (nsKey nsOpt ks key)).setKey (nsKey nsOpt ks key)
        (.list (xs.map ser.dumps))) key =
      .ok (.listRef (nsKey nsOpt ks key)) ∧
    listMembers ser
      ((s.delKey (nsKey nsOpt ks key)).setKey (nsKey nsOpt ks key)
        (.list (xs.map ser.dumps))) (nsKey nsOpt ks key) = xs := by
  have hnd : xs.map ser.dumps ≠ [] := by
    simpa using hxs
  refine ⟨?_, ?_, ?_⟩
  · have htr : objSetCmds khsh vhsh nsOpt ser ks key (.pylist xs) none =
        .ok [Cmd.del (nsKey nsOpt ks key),
          Cmd.rpush (nsKey nsOpt ks key) (xs.map ser.dumps)] := by
      simp [objSetCmds, hkey]
    rw [objSetRun, htr]
    simp [runTrace, runCmds, applyCmd, hnd, Store.lookup_delKey_self]
  · simp [getitem, Store.lookup_setKey_self]
  · rw [listMembers, Store.lookup_setKey_self]
    show (xs.map ser.dumps).map ser.loads = xs
    rw [List.map_map]
    have hmc : List.map (ser.loads ∘ ser.dumps) xs = List.map id xs :=
      List.map_congr_left (fun x _ => hser x)
    rw [hmc, List.map_id]

theorem set_get_set {κ α : Type} (khsh : κ → Bool) (vhsh : α → Bool)
    (nsOpt : Option Bytes) (ser : Serializer α) (ks : Serializer κ)
    (hser : ser.RoundTrip) (s : Store) (key : κ) (hkey : khsh key = true)
    (xs : List α) (hxs : xs ≠ []) (hall : xs.all vhsh = true) :
    objSetRun khsh vhsh nsOpt ser ks s key (.pyset xs) none =
      (none, (s.delKey (nsKey nsOpt ks key)).setKey (nsKey nsOpt ks key)
        (.set (saddList [] (xs.map ser.dumps)))) ∧
    getitem nsOpt ser ks
      ((s.delKey (nsKey nsOpt ks key)).setKey (nsKey nsOpt ks key)
        (.set (saddList [] (xs.map ser.dumps))))
      ((s.delKey (nsKey nsOpt ks key)).setKey (nsKey nsOpt ks key)
        (.set (saddList [] (xs.map ser.dumps)))) key =
      .ok (.setRef (nsKey nsOpt ks key)) ∧
    (∀ x : α, x ∈ setMembers ser
      ((s.delKey (nsKey nsOpt ks key)).setKey (nsKey nsOpt ks key)
        (.set (saddList [] (xs.map ser.dumps)))) (nsKey nsOpt ks key) ↔
      x ∈ xs) := by
  have hnd : xs.map ser.dumps ≠ [] := by simpa using hxs
  refine ⟨?_, ?_, ?_⟩
  · have htr : objSetCmds khsh vhsh nsOpt ser ks key (.pyset xs) none =
        .ok [Cmd.del (nsKey nsOpt ks key),
          Cmd.sadd (nsKey nsOpt ks key) (xs.map ser.dumps)] := by
      simp [objSetCmds, hkey, setUpdateCmds, hall, hnd]
    rw [objSetRun, htr]
    simp [runTrace, runCmds, applyCmd, hnd, Store.lookup_delKey_self]
  · simp [getitem, Store.lookup_setKey_self]
  · intro x
    rw [setMembers, Store.lookup_setKey_self]
    show x ∈ (saddList [] (xs.map ser.dumps)).map ser.loads ↔ x ∈ xs
    rw [List.mem_map]
    constructor
    · rintro ⟨b, hb, hbl⟩
      rcases (mem_saddList b (xs.map ser.dumps) []).1 hb with hb2 | hb2
      · simp at hb2
      · rw [List.mem_map] at hb2
        obtain ⟨y, hy, hyb⟩ := hb2
        rw [← hbl, ← hyb, hser y]
        exact hy
    · intro hx
      exact ⟨ser.dumps x,
        (mem_saddList _ _ []).2 (Or.inr (List.mem_map_of_mem _ hx)),
        hser x⟩

theorem set_get_dict {κ α : Type} (khsh : κ → Bool) (vhsh : α → Bool)
    (nsOpt : Option Bytes) (ser : Serializer α) (ks : Serializer κ)
    (hser : ser.RoundTrip) (s : Store) (key : κ) (hkey : khsh key = true)
    (kvs : List (α × α)) (hne : kvs ≠ []) (hnd : (keysOf kvs).Nodup)
    (hall : kvs.all (fun p => vhsh p.1) = true) :
    objSetRun khsh vhsh nsOpt ser ks s key (.pydict kvs) none =
      (none, (s.delKey (nsKey nsOpt ks key)).setKey (nsKey nsOpt ks key)
        (.hash (kvs.map (fun p => (ser.dumps p.1, ser.dumps p.2))))) ∧
    getitem nsOpt ser ks
      ((s.delKey (nsKey nsOpt ks key)).setKey (nsKey nsOpt ks key)
        (.hash (kvs.map (fun p => (ser.dumps p.1, ser.dumps p.2)))))
      ((s.delKey (nsKey nsOpt ks key)).setKey (nsKey nsOpt ks key)
        (.hash (kvs.map (fun p => (ser.dumps p.1, ser.dumps p.2))))) key =
      .ok (.hashRef (nsKey nsOpt ks key)) ∧
    hashItems ser ser
      ((s.delKey (nsKey nsOpt ks key)).setKey (nsKey nsOpt ks key)
        (.hash (kvs.map (fun p => (ser.dumps p.1, ser.dumps p.2)))))
      (nsKey nsOpt ks key) = kvs := by
  have hfvsne : kvs.map (fun p => (ser.dumps p.1, ser.dumps p.2)) ≠ [] := by
    simpa using hne
  have hkeys : keysOf (kvs.map (fun p => (ser.dumps p.1, ser.dumps p.2))) =
      (keysOf kvs).map ser.dumps := by
    simp [keysOf, List.map_map]
  have hndf : (keysOf (kvs.map
      (fun p => (ser.dumps p.1, ser.dumps p.2)))).Nodup := by
    rw [hkeys]
    exact hnd.map hser.dumps_injective
  have hfold : (kvs.map (fun p => (ser.dumps p.1, ser.dumps p.2))).foldl
      (fun acc p => dPut acc p.1 p.2) [] =
      kvs.map (fun p => (ser.dumps p.1, ser.dumps p.2)) := by
    rw [foldl_dPut_fresh _ [] (fun p _ => by simp) hndf]
    rfl
  refine ⟨?_, ?_, ?_⟩
  · have htr : objSetCmds khsh vhsh nsOpt ser ks key (.pydict kvs) none =
        .ok (Cmd.del (nsKey nsOpt ks key) ::
          (kvs.map (fun p => (ser.dumps p.1, ser.dumps p.2))).map
            (fun q => Cmd.hset (nsKey nsOpt ks key) q.1 q.2)) := by
      simp [objSetCmds, hkey, hall, dictUpdateCmds, List.map_map]
    rw [objSetRun, htr]
    have happ : applyCmds s (Cmd.del (nsKey nsOpt ks key) ::
        (kvs.map (fun p => (ser.dumps p.1, ser.dumps p.2))).map
          (fun q => Cmd.hset (nsKey nsOpt ks key) q.1 q.2)) =
        .ok ((s.delKey (nsKey nsOpt ks key)).setKey (nsKey nsOpt ks key)
          (.hash (kvs.map (fun p => (ser.dumps p.1, ser.dumps p.2))))) := by
      have hstep : applyCmds s (Cmd.del (nsKey nsOpt ks key) ::
          (kvs.map (fun p => (ser.dumps p.1, ser.dumps p.2))).map
            (fun q => Cmd.hset (nsKey nsOpt ks key) q.1 q.2)) =
          applyCmds (s.delKey (nsKey nsOpt ks key))
            ((kvs.map (fun p => (ser.dumps p.1, ser.dumps p.2))).map
              (fun q => Cmd.hset (nsKey nsOpt ks key) q.1 q.2)) := by
        simp [applyCmds, applyCmd]
      rw [hstep, applyCmds_hsets_fresh _ _ _
        (Store.lookup_delKey_self s _) hfvsne, hfold]
    rw [runTrace, runCmds_of_applyCmds _ _ _ happ]
  · simp [getitem, Store.lookup_setKey_self]
  · rw [hashItems, Store.lookup_setKey_self]
    show (kvs.map (fun p => (ser.dumps p.1, ser.dumps p.2))).map
        (fun p => (ser.loads p.1, ser.loads p.2)) = kvs
    rw [List.map_map]
    have hmc : kvs.map ((fun p : Bytes × Bytes =>
          (ser.loads p.1, ser.loads p.2)) ∘
        (fun p : α × α => (ser.dumps p.1, ser.dumps p.2))) =
        kvs.map id := by
      refine List.map_congr_left ?_
      intro p _
      show (ser.loads (ser.dumps p.1), ser.loads (ser.dumps p.2)) = p
      rw [hser p.1, hser p.2]
    rw [hmc, List.map_id]

theorem set_get_zdict {κ α : Type} (khsh : κ → Bool) (vhsh : α → Bool)
    (nsOpt : Option Bytes) (ser : Serializer α) (ks : Serializer κ)
    (hser : ser.RoundTrip) (s : Store) (key : κ) (hkey : khsh key = true)
    (zkvs : List (α × Int)) (hne : zkvs ≠ []) (hnd : (keysOf zkvs).Nodup) :
    objSetRun khsh vhsh nsOpt ser ks s key (.pyzdict zkvs) none =
      (none, (s.delKey (nsKey nsOpt ks key)).setKey (nsKey nsOpt ks key)
        (.zset (zkvs.map (fun p => (ser.dumps p.1, p.2))))) ∧
    getitem nsOpt ser ks
      ((s.delKey (nsKey nsOpt ks key)).setKey (nsKey nsOpt ks key)
        (.zset (zkvs.map (fun p => (ser.dumps p.1, p.2)))))
      ((s.delKey (nsKey nsOpt ks key)).setKey (nsKey nsOpt ks key)
        (.zset (zkvs.map (fun p => (ser.dumps p.1, p.2))))) key =
      .ok (.zsetRef (nsKey nsOpt ks key)) ∧
    zsetItems ser
      ((s.delKey (nsKey nsOpt ks key)).setKey (nsKey nsOpt ks key)
        (.zset (zkvs.map (fun p => (ser.dumps p.1, p.2)))))
      (nsKey nsOpt ks key) = zkvs := by
  have hpne : zkvs.map (fun p => ((p.2 : Int), ser.dumps p.1)) ≠ [] := by
    simpa using hne
  have hz : zaddList [] (zkvs.map (fun p => ((p.2 : Int), ser.dumps p.1))) =
      zkvs.map (fun p => (ser.dumps p.1, p.2)) := by
    rw [zaddList_eq_foldl, List.foldl_map]
    have hfold := foldl_dPut_fresh
      (zkvs.map (fun p => (ser.dumps p.1, (p.2 : Int)))) []
      (fun p _ => by simp)
      (by
        have hkeys : keysOf (zkvs.map
            (fun p => (ser.dumps p.1, (p.2 : Int)))) =
            (keysOf zkvs).map ser.dumps := by
          simp [keysOf, List.map_map]
        rw [hkeys]
        exact hnd.map hser.dumps_injective)
    rw [List.nil_append] at hfold
    rw [← hfold, List.foldl_map]
  refine ⟨?_, ?_, ?_⟩
  · have htr : objSetCmds khsh vhsh nsOpt ser ks key (.pyzdict zkvs) none =
        .ok [Cmd.del (nsKey nsOpt ks key),
          Cmd.zadd (nsKey nsOpt ks key)
            (zkvs.map (fun p => ((p.2 : Int), ser.dumps p.1)))] := by
      simp [objSetCmds, hkey, zsetUpdateCmds]
    rw [objSetRun, htr]
    simp [runTrace, runCmds, applyCmd, hpne, Store.lookup_delKey_self, hz]
  · simp [getitem, Store.lookup_setKey_self]
  · rw [zsetItems, Store.lookup_setKey_self]
    show (zkvs.map (fun p => (ser.dumps p.1, p.2))).map
        (fun p => (ser.loads p.1, p.2)) = zkvs
    rw [List.map_map]
    have hmc : zkvs.map ((fun p : Bytes × Int => (ser.loads p.1, p.2)) ∘
        (fun p : α × Int => (ser.dumps p.1, p.2))) = zkvs.map id := by
      refine List.map_congr_left ?_
      intro p _
      show (ser.loads (ser.dumps p.1), p.2) = p
      rw [hser p.1]
    rw [hmc, List.map_id]

/-- C3, amended: with round-tripping serializers, `ObjectRedis.set`
followed by `ObjectRedis.__getitem__` on the same key returns contents
equal to the stored value, the previous contents of the key (any `s`)
having been replaced — for scalars, and for NON-EMPTY list-like, set-like,
dict-like and score-map values (lists keep order; sets compare as element
sets).  Empty collections are excluded; the counterexample theorem shows
the empty set-like value: `set` then only clears the key, and the
following read raises `KeyError` instead of returning an empty wrapper. -/
theorem set_get_roundtrip {κ α : Type} (khsh : κ → Bool) (vhsh : α → Bool)
    (nsOpt : Option Bytes) (ser : Serializer α) (ks : Serializer κ)
    (hser : ser.RoundTrip) (s : Store) (key : κ) (hkey : khsh key = true) :
    (∀ v : α,
      (objSetRun khsh vhsh nsOpt ser ks s key (.scalar v) none).1 = none ∧
      getitem nsOpt ser ks
        (objSetRun khsh vhsh nsOpt ser ks s key (.scalar v) none).2
        (objSetRun khsh vhsh nsOpt ser ks s key (.scalar v) none).2 key =
        .ok (.scalar v)) ∧
    (∀ xs : List α, xs ≠ [] →
      (objSetRun khsh vhsh nsOpt ser ks s key (.pylist xs) none).1 = none ∧
      getitem nsOpt ser ks
        (objSetRun khsh vhsh nsOpt ser ks s key (.pylist xs) none).2
        (objSetRun khsh vhsh nsOpt ser ks s key (.pylist xs) none).2 key =
        .ok (.listRef (nsKey nsOpt ks key)) ∧
      listMembers ser
        (objSetRun khsh vhsh nsOpt ser ks s key (.pylist xs) none).2
        (nsKey nsOpt ks key) = xs) ∧
    (∀ xs : List α, xs ≠ [] → xs.all vhsh = true →
      (objSetRun khsh vhsh nsOpt ser ks s key (.pyset xs) none).1 = none ∧
      getitem nsOpt ser ks
        (objSetRun khsh vhsh nsOpt ser ks s key (.pyset xs) none).2
        (objSetRun khsh vhsh nsOpt ser ks s key (.pyset xs) none).2 key =
        .ok (.setRef (nsKey nsOpt ks key)) ∧
      (∀ x : α, x ∈ setMembers ser
        (objSetRun khsh vhsh nsOpt ser ks s key (.pyset xs) none).2
        (nsKey nsOpt ks key) ↔ x ∈ xs)) ∧
    (∀ kvs : List (α × α), kvs ≠ [] → (keysOf kvs).Nodup →
      kvs.all (fun p => vhsh p.1) = true →
      (objSetRun khsh vhsh nsOpt ser ks s key (.pydict kvs) none).1 = none ∧
      getitem nsOpt ser ks
        (objSetRun khsh vhsh nsOpt ser ks s key (.pydict kvs) none).2
        (objSetRun khsh vhsh nsOpt ser ks s key (.pydict kvs) none).2 key =
        .ok (.hashRef (nsKey nsOpt ks key)) ∧
      hashItems ser ser
        (objSetRun khsh vhsh nsOpt ser ks s key (.pydict kvs) none).2
        (nsKey nsOpt ks key) = kvs) ∧
    (∀ zkvs : List (α × Int), zkvs ≠ [] → (keysOf zkvs).Nodup →
      (objSetRun khsh vhsh nsOpt ser ks s key (.pyzdict zkvs) none).1 = none ∧
      getitem nsOpt ser ks
        (objSetRun khsh vhsh nsOpt ser ks s key (.pyzdict zkvs) none).2
        (objSetRun khsh vhsh nsOpt ser ks s key (.pyzdict zkvs) none).2 key =
        .ok (.zsetRef (nsKey nsOpt ks key)) ∧
      zsetItems ser
        (objSetRun khsh vhsh nsOpt ser ks s key (.pyzdict zkvs) none).2
        (nsKey nsOpt ks key) = zkvs) := by
  refine ⟨?_, ?_, ?_, ?_, ?_⟩
  · intro v
    obtain ⟨h1, h2⟩ := set_get_scalar khsh vhsh nsOpt ser ks hser s key hkey v
    rw [h1]
    exact ⟨rfl, h2⟩
  · intro xs hxs
    obtain ⟨h1, h2, h3⟩ :=
      set_get_list khsh vhsh nsOpt ser ks hser s key hkey xs hxs
    rw [h1]
    exact ⟨rfl, h2, h3⟩
  · intro xs hxs hall
    obtain ⟨h1, h2, h3⟩ :=
      set_get_set khsh vhsh nsOpt ser ks hser s key hkey xs hxs hall
    rw [h1]
    exact ⟨rfl, h2, h3⟩
  · intro kvs hne hnd hall
    obtain ⟨h1, h2, h3⟩ :=
      set_get_dict khsh vhsh nsOpt ser ks hser s key hkey kvs hne hnd hall
    rw [h1]
    exact ⟨rfl, h2, h3⟩
  · intro zkvs hne hnd
    obtain ⟨h1, h2, h3⟩ :=
      set_get_zdict khsh vhsh nsOpt ser ks hser s key hkey zkvs hne hnd
    rw [h1]
    exact ⟨rfl, h2, h3⟩

/-- C3, counterexample to the claim as stated ("for every value"):
storing the empty set succeeds (`set` clears the key, `RedisSet.update`
then adds nothing), after which reading the key raises `KeyError` instead
of returning a set wrapper with contents equal to the stored empty set. -/
theorem set_get_empty_counterexample :
    (objSetRun (fun _ : Nat => true) (fun _ : Nat => true) none natSer natSer
      [] 0 (PyVal.pyset []) none).1 = none ∧
    getitem none natSer natSer
      (objSetRun (fun _ : Nat => true) (fun _ : Nat => true) none natSer
        natSer [] 0 (PyVal.pyset []) none).2
      (objSetRun (fun _ : Nat => true) (fun _ : Nat => true) none natSer
        natSer [] 0 (PyVal.pyset []) none).2 0 =
      Except.error PyError.keyError := by
  constructor
  · decide
  · rfl

end RoundtripLemmas

/-! ### Concrete instances for the theorems with hypotheses -/

section ConcreteInstances

theorem dict_eq_correct_witness :
    (keysOf ([(1, 10), (2, 20)] : Items Nat Nat)).Nodup ∧
    (keysOf ([(2, 20), (1, 10)] : Items Nat Nat)).Nodup ∧
    ((dict_eq ([(1, 10), (2, 20)] : Items Nat Nat) [(2, 20), (1, 10)] = true ↔
        SamePairs ([(1, 10), (2, 20)] : Items Nat Nat) [(2, 20), (1, 10)]) ∧
      (([(1, 10), (2, 20)] : Items Nat Nat).length ≠
          ([(2, 20), (1, 10)] : Items Nat Nat).length →
        dict_eq ([(1, 10), (2, 20)] : Items Nat Nat) [(2, 20), (1, 10)] =
          false) ∧
      (SamePairs ([(1, 10), (2, 20)] : Items Nat Nat) [(2, 20), (1, 10)] →
        (dictEqRun ([(1, 10), (2, 20)] : Items Nat Nat)
          [(2, 20), (1, 10)]).2 = false)) :=
  ⟨by decide, by decide, dict_eq_correct _ _ (by decide) (by decide)⟩

theorem set_get_roundtrip_witness :
    natSer.RoundTrip ∧ (fun _ : Nat => true) 3 = true ∧
    ((objSetRun (fun _ : Nat => true) (fun _ : Nat => true) none natSer
        natSer [] 3 (.scalar 7) none).1 = none ∧
      getitem none natSer natSer
        (objSetRun (fun _ : Nat => true) (fun _ : Nat => true) none natSer
          natSer [] 3 (.scalar 7) none).2
        (objSetRun (fun _ : Nat => true) (fun _ : Nat => true) none natSer
          natSer [] 3 (.scalar 7) none).2 3 = .ok (.scalar 7)) :=
  ⟨fun _ => rfl, rfl,
    (set_get_roundtrip (fun _ => true) (fun _ => true) none natSer natSer
      (fun _ => rfl) [] 3 rfl).1 7⟩

theorem ttl_local_expiry_witness :
    (fun _ : Nat => true) 5 = true ∧
    dGet (ttlAdd (fun _ : Nat => true) natSer [] 10 4 5).2
      (natSer.dumps 5) = some (10 + 4) :=
  ⟨rfl, (ttl_local_expiry (fun _ => true) natSer [] 10 4 5 0 rfl).1⟩

theorem listInsert_spec_witness :
    (([7] : Bytes) ∉ ([[1], [2], [3]] : List Bytes)) ∧
    (¬ ([7] : Bytes) = [9]) ∧
    listInsert ([[1], [2], [3]] : List Bytes) 1 [9] [7] =
      (if ([[1], [2], [3]] : List Bytes).length ≤ 1 then
        ([[1], [2], [3]] : List Bytes) ++ [[9]]
      else ([[1], [2], [3]] : List Bytes).take 1 ++
        [9] :: ([[1], [2], [3]] : List Bytes).drop 1) :=
  ⟨by decide, by decide,
    listInsert_spec [[1], [2], [3]] 1 [9] [7] (by decide) (by decide)⟩

theorem set_ttl_passthrough_witness :
    (fun _ : Nat => true) 3 = true ∧
    objSetCmds (fun _ : Nat => true) (fun _ : Nat => true) none natSer
      natSer 3 (.scalar 7) (some 12) =
      .ok [.setexStr (nsKey none natSer 3) 12 (natSer.dumps 7)] :=
  ⟨rfl, (set_ttl_passthrough (fun _ => true) (fun _ => true) none natSer
    natSer 3 7 [] [] [] 12 rfl).1⟩

theorem dns_ns_roundtrip_witness :
    natSer.RoundTrip ∧
    dnsKey (some (mkNamespace [1])) natSer
      (nsKey (some (mkNamespace [1])) natSer 5) = .ok 5 :=
  ⟨fun _ => rfl, (dns_ns_roundtrip natSer (fun _ => rfl) [1] 5 []).2.1⟩

theorem ttlset_spec_witness :
    (fun _ : Nat => true) 5 = true ∧
    ((ttlAdd (fun _ : Nat => true) natSer [] 10 4 5).1 = none ∧
      dGet (ttlAdd (fun _ : Nat => true) natSer [] 10 4 5).2
        (natSer.dumps 5) = some (10 + 4)) :=
  ⟨rfl, (ttlset_spec (fun _ => true) natSer [] 10 4 5 0 rfl).1⟩

theorem unhashable_typeerror_witness :
    (fun _ : Nat => false) 3 = false ∧ (fun _ : Nat => false) 4 = false ∧
    objSetCmds (fun _ : Nat => false) (fun _ : Nat => true) none natSer
      natSer 3 (.scalar 7) none = .error .typeError :=
  ⟨rfl, rfl,
    (unhashable_typeerror (fun _ => false) (fun _ => true)
      (fun _ => false) none natSer natSer natSer [] 3 (.scalar 7) none
      [] [] 4 0 0 [] [] rfl rfl).1⟩

theorem delitem_spec_witness :
    Store.lookup ([] : Store) (nsKey none natSer 3) = none ∧
    objDelitem none natSer ([] : Store) 3 = (some .keyError, []) :=
  ⟨rfl,
    (delitem_spec none natSer natSer natSer [] 3 [] [] 0 0).2.1 rfl⟩

end ConcreteInstances

end PyRedis
